import Mathlib

/-!
# Verification of the recursive radix-k permutation network

This file is a shallow embedding, in Lean 4, of the permutation-network
code of the repository:

* `CleanKWayNetwork` (`clean_kway_network.py`): the contiguous-chunk
  distribute/recurse/collect network (`_calculate_group_sizes`,
  `_apply_input_switches`, `_apply_output_switches`, `_permute_recursive`,
  `_generate_switches_recursive`, `apply_permutation`, `get_permutation`,
  `check_validity`).
* `KWayNetwork` (`waksman_analysis.py`): the index router
  (`_route_recursive`) and its scatter-style `apply_permutation`.
* `WaksmanShuffle` (`test_waksman_python.py`) and `WaksmanShuffleFixed`
  (`test_waksman_fixed.py`): the stride/interleaving recursive shuffles.

Python dictionaries are embedded as partial functions `Key → Option (List Nat)`.
Python's bounded recursion (the recursion strictly decreases the region size)
is embedded with an explicit fuel argument; every entry point passes fuel `n`,
which is provably sufficient, and all theorems carry the corresponding
`size ≤ fuel` side condition.  The nondeterminism of `random.shuffle` is
embedded by an oracle `rho : key → length → permutation`; quantifying over
all oracles whose answers are permutations of `0..m-1` captures "for every
seed", since `random.shuffle` always produces such a permutation.
-/

namespace CleanKWay

/-- Role tag of a switch key: `'base'`, `'input'`, or `('output', pos)`
in the Python tuples used as dictionary keys. -/
inductive SwitchRole where
  | base : SwitchRole
  | input : SwitchRole
  | output : Nat → SwitchRole
deriving DecidableEq

/-- A switch key `(depth, start, role)`, mirroring the Python dictionary keys
`(depth, start, 'base')`, `(depth, start+i, 'input')`, `(depth, start, 'output', pos)`. -/
structure SwitchKey where
  depth : Nat
  start : Nat
  role : SwitchRole
deriving DecidableEq

/-- The switch dictionary `self.switches`, embedded as a partial function. -/
def SwitchTable : Type := SwitchKey → Option (List Nat)

/-- `self.switches.get(key, list(range(m)))`: lookup with identity fallback. -/
def lookupPerm (sw : SwitchTable) (key : SwitchKey) (m : Nat) : List Nat :=
  (sw key).getD (List.range m)

/-- `_calculate_group_sizes(size)`: first `size % k` groups get
`size / k + 1`; the others get `size / k` (spelled with the redundant
`base_size > 0` test exactly as the source does). -/
def calculateGroupSizes (k size : Nat) : List Nat :=
  (List.range k).map (fun i =>
    if i < size % k then size / k + 1
    else if 0 < size / k then size / k
    else 0)

/-- Number of iterations of `for i in range(0, size, k)`, i.e. `⌈size/k⌉`. -/
def numChunks (k size : Nat) : Nat := (size + k - 1) / k

/-- The contiguous chunks `subarray[i:i+k]` for `i in range(0, size, k)`. -/
def toChunks (k : Nat) (l : List α) : List (List α) :=
  (List.range (numChunks k l.length)).map (fun c => (l.drop (k * c)).take k)

/-- `_apply_input_switches`: split the region into chunks of length `≤ k`;
for each chunk apply its `'input'` switch and give the element at chunk-local
position `j` to group `j`.  Group `j` receives one element from every chunk
of length `> j`, in chunk order. -/
def applyInputSwitches [Inhabited α] (sw : SwitchTable) (k start depth : Nat)
    (sub : List α) : List (List α) :=
  (List.range k).map (fun j =>
    ((toChunks k sub).enum).filterMap (fun ic =>
      if j < ic.2.length then
        some (ic.2.getD
          ((lookupPerm sw ⟨depth, start + k * ic.1, SwitchRole.input⟩ ic.2.length).getD j 0)
          default)
      else none))

/-- `_apply_output_switches`: for each slot position `pos`, gather the
elements sitting at position `pos` of each group (in group order), permute
the gathered chunk by the `('output', pos)` switch unless it has exactly one
element, and concatenate everything in slot order. -/
def applyOutputSwitches [Inhabited α] (sw : SwitchTable) (k start depth : Nat)
    (gs : List (List α)) : List α :=
  ((List.range ((gs.map List.length).foldr max 0)).map (fun pos =>
    if (gs.filterMap (fun g => g[pos]?)).length = 1 then gs.filterMap (fun g => g[pos]?)
    else (List.range (gs.filterMap (fun g => g[pos]?)).length).map (fun i =>
      (gs.filterMap (fun g => g[pos]?)).getD
        ((lookupPerm sw ⟨depth, start, SwitchRole.output pos⟩
            (gs.filterMap (fun g => g[pos]?)).length).getD i 0)
        default))).flatten

/-- Absolute start offsets of the successive groups: the running value of
`start + group_start` in the source's loop over groups. -/
def groupStarts (start : Nat) (lens : List Nat) : List Nat :=
  lens.scanl (fun acc g => acc + g) start

/-- `_permute_recursive(array, start, size, depth)`, written as a pure
function of the region `array[start:start+size]` (the Python code reads and
writes only that slice).  `fuel` bounds the recursion depth; the region size
strictly decreases across recursive calls, so fuel `n` at the entry point is
always sufficient. -/
def permuteRecursive [Inhabited α] (sw : SwitchTable) (k : Nat) :
    Nat → Nat → Nat → List α → List α
  | 0, _, _, region => region
  | fuel + 1, start, depth, region =>
    if region.length ≤ 1 then region
    else if region.length ≤ k then
      (List.range region.length).map (fun i =>
        region.getD
          ((lookupPerm sw ⟨depth, start, SwitchRole.base⟩ region.length).getD i 0) default)
    else
      applyOutputSwitches sw k start depth
        (((applyInputSwitches sw k start depth region).zip
            (groupStarts start ((applyInputSwitches sw k start depth region).map List.length))).map
          (fun gst => permuteRecursive sw k fuel gst.2 (depth + 1) gst.1))

/-- `apply_permutation(array)`: raise `ValueError` (embedded as
`Except.error "size mismatch"`) when the array length differs from the
network size `n`; otherwise permute the whole array. -/
def applyPermutation [Inhabited α] (sw : SwitchTable) (n k : Nat) (array : List α) :
    Except String (List α) :=
  if array.length = n then Except.ok (permuteRecursive sw k n 0 0 array)
  else Except.error "size mismatch"

/-- `get_permutation()`: apply the network to the identity `list(range(n))`. -/
def getPermutation (sw : SwitchTable) (n k : Nat) : List Nat :=
  permuteRecursive sw k n 0 0 (List.range n)

/-- `check_validity()`: `sorted(perm) == list(range(n))`. -/
def checkValidity (sw : SwitchTable) (n k : Nat) : Bool :=
  List.mergeSort (getPermutation sw n k) (fun a b => decide (a ≤ b)) == List.range n

/-- Pointwise union of a list of tables (the groups' dictionaries are
written into the single dictionary `self.switches`; all keys are distinct,
so the union is order-independent). -/
def unionTables (ts : List SwitchTable) : SwitchTable :=
  fun key => ts.foldr (fun t acc => (t key).orElse (fun _ => acc)) none

/-- `_generate_switches_recursive(start, size, depth)`: the table of switches
written by the builder, as a partial function.  `rho key m` is the
permutation of `0..m-1` produced by `random.shuffle` for the single write to
`key` (each key is written exactly once). -/
def generateSwitchesRecursive (rho : SwitchKey → Nat → List Nat) (k : Nat) :
    Nat → Nat → Nat → Nat → SwitchTable
  | 0, _, _, _ => fun _ => none
  | fuel + 1, start, size, depth =>
    if size ≤ 1 then fun _ => none
    else if size ≤ k then
      fun key => if key = ⟨depth, start, SwitchRole.base⟩ then some (rho key size) else none
    else
      fun key =>
        ((List.range (numChunks k size)).findSome? (fun c =>
          if key = ⟨depth, start + k * c, SwitchRole.input⟩ then
            some (rho key (min k (size - k * c)))
          else none)).orElse (fun _ =>
        ((List.range ((calculateGroupSizes k size).foldr max 0)).findSome? (fun pos =>
          if 1 < (calculateGroupSizes k size).countP (fun g => pos < g) ∧
              key = ⟨depth, start, SwitchRole.output pos⟩ then
            some (rho key ((calculateGroupSizes k size).countP (fun g => pos < g)))
          else none)).orElse (fun _ =>
        unionTables
          (((calculateGroupSizes k size).zip (groupStarts start (calculateGroupSizes k size))).map
            (fun gs => generateSwitchesRecursive rho k fuel gs.2 gs.1 (depth + 1))) key))

/-- `set_random_switches()` for a network of size `n` and radix `k`. -/
def setRandomSwitches (rho : SwitchKey → Nat → List Nat) (n k : Nat) : SwitchTable :=
  generateSwitchesRecursive rho k n 0 n 0

/-- Well-formedness of a switch table for the `(start, size, depth)` node
tree of a `(n, k)` network: every switch the applier can look up at this
node or below resolves (through the identity fallback) to a permutation of
`0..m-1` of the exact length `m` the applier indexes it with.  Every table
produced by `set_random_switches` satisfies this for any oracle whose
answers are permutations. -/
def WFat (sw : SwitchTable) (k : Nat) : Nat → Nat → Nat → Nat → Prop
  | 0, _, _, _ => True
  | fuel + 1, start, size, depth =>
    if size ≤ 1 then True
    else if size ≤ k then
      (lookupPerm sw ⟨depth, start, SwitchRole.base⟩ size).Perm (List.range size)
    else
      (∀ c, c < numChunks k size →
        (lookupPerm sw ⟨depth, start + k * c, SwitchRole.input⟩ (min k (size - k * c))).Perm
          (List.range (min k (size - k * c)))) ∧
      (∀ pos, pos < (calculateGroupSizes k size).foldr max 0 →
        1 < (calculateGroupSizes k size).countP (fun g => pos < g) →
        (lookupPerm sw ⟨depth, start, SwitchRole.output pos⟩
            ((calculateGroupSizes k size).countP (fun g => pos < g))).Perm
          (List.range ((calculateGroupSizes k size).countP (fun g => pos < g)))) ∧
      (∀ gs ∈ (calculateGroupSizes k size).zip (groupStarts start (calculateGroupSizes k size)),
        WFat sw k fuel gs.2 gs.1 (depth + 1))

/-- `CleanKWayNetwork.__init__(n, k)`: the constructor body only stores its
arguments and resets the mutable state; it contains no validation at all.
`n` and `k` are embedded as integers, as in Python, so that negative
arguments can be discussed. -/
structure Network where
  n : Int
  k : Int
  switches : SwitchTable
  depthCounter : Nat

/-- The constructor: store `n` and `k`, start with an empty switch
dictionary and a zero depth counter. -/
def Network.init (n : Int) (k : Int) : Network :=
  { n := n, k := k, switches := fun _ => none, depthCounter := 0 }

end CleanKWay

namespace KWayRoute

/-- Tag of a `KWayNetwork` switch key: the Python keys are
`(depth, start, size)` for base-case switches and `(depth, start, 'groups')`
for the group-level shuffle. -/
inductive WTag where
  | sz : Nat → WTag
  | groups : WTag
deriving DecidableEq

/-- A `KWayNetwork` switch key. -/
structure WKey where
  depth : Nat
  start : Nat
  tag : WTag
deriving DecidableEq

/-- The `KWayNetwork` switch dictionary. -/
def WTable : Type := WKey → Option (List Nat)

/-- `[base_size + (1 if i < remainder else 0) for i in range(k)]`. -/
def groupSizesW (k size : Nat) : List Nat :=
  (List.range k).map (fun i => size / k + if i < size % k then 1 else 0)

/-- `[s for s in group_sizes if s > 0]`. -/
def nonEmptyGroups (k size : Nat) : List Nat :=
  (groupSizesW k size).filter (fun s => decide (0 < s))

/-- The loop finding which group `local_pos` falls in: the first index `i`
with `local_pos < offset_i + gsize_i`; the loop variable keeps its initial
value `0` if no group matches. -/
def findGroupIdx (gs : List Nat) (localPos : Nat) : Nat :=
  ((List.range gs.length).find? (fun i => decide (localPos < (gs.take (i + 1)).sum))).getD 0

/-- `_route_recursive(pos, start, size, depth)`.  A missing switch is drawn
on the fly from `rho` and (in Python) stored back; since each key determines
its permutation length, a fixed function `rho` models the
generate-once-then-reuse behaviour exactly. -/
def routeRecursive (sw : WTable) (rho : WKey → Nat → List Nat) (k : Nat) :
    Nat → Nat → Nat → Nat → Nat → Nat
  | 0, pos, _, _, _ => pos
  | fuel + 1, pos, start, size, depth =>
    if size ≤ 1 then pos
    else if size ≤ k then
      match (List.range size).find? (fun i =>
          decide (((sw ⟨depth, start, WTag.sz size⟩).getD
            (rho ⟨depth, start, WTag.sz size⟩ size)).getD i 0 = pos - start)) with
      | some i => start + i
      | none => pos
    else
      routeRecursive sw rho k fuel
        (start + ((nonEmptyGroups k size).take
            (((sw ⟨depth, start, WTag.groups⟩).getD
              (rho ⟨depth, start, WTag.groups⟩ (nonEmptyGroups k size).length)).getD
                (findGroupIdx (nonEmptyGroups k size) (pos - start)) 0)).sum +
          ((pos - start) -
            ((nonEmptyGroups k size).take
              (findGroupIdx (nonEmptyGroups k size) (pos - start))).sum))
        (start + ((nonEmptyGroups k size).take
            (((sw ⟨depth, start, WTag.groups⟩).getD
              (rho ⟨depth, start, WTag.groups⟩ (nonEmptyGroups k size).length)).getD
                (findGroupIdx (nonEmptyGroups k size) (pos - start)) 0)).sum)
        ((nonEmptyGroups k size).getD
          (((sw ⟨depth, start, WTag.groups⟩).getD
            (rho ⟨depth, start, WTag.groups⟩ (nonEmptyGroups k size).length)).getD
              (findGroupIdx (nonEmptyGroups k size) (pos - start)) 0) 0)
        (depth + 1)

/-- `route(input_pos)` for a network of size `n`, radix `k`. -/
def route (sw : WTable) (rho : WKey → Nat → List Nat) (n k : Nat) (pos : Nat) : Nat :=
  routeRecursive sw rho k n pos 0 n 0

/-- `KWayNetwork.apply_permutation(input_array)`: a fresh zero array is
filled by `result[route(i)] = input_array[i]` for `i` in input order. -/
def applyPermutationW (sw : WTable) (rho : WKey → Nat → List Nat) (n k : Nat)
    (input : List Nat) : List Nat :=
  if input.length ≤ 1 then input
  else (List.range input.length).foldl
    (fun res i => res.set (route sw rho n k i) (input.getD i 0))
    (List.replicate input.length 0)

/-- Pointwise union of tables (all written keys are distinct). -/
def unionW (ts : List WTable) : WTable :=
  fun key => ts.foldr (fun t acc => (t key).orElse (fun _ => acc)) none

/-- `KWayNetwork._set_random_recursive(start, size, depth)`: the table of
switches written by `set_random_switches`, with `rho` supplying the drawn
permutations. -/
def setRandomRecursiveW (rho : WKey → Nat → List Nat) (k : Nat) :
    Nat → Nat → Nat → Nat → WTable
  | 0, _, _, _ => fun _ => none
  | fuel + 1, start, size, depth =>
    if size ≤ 1 then fun _ => none
    else if size ≤ k then
      fun key => if key = ⟨depth, start, WTag.sz size⟩ then some (rho key size) else none
    else
      fun key =>
        (if key = ⟨depth, start, WTag.groups⟩ then
          some (rho key (nonEmptyGroups k size).length)
        else none).orElse (fun _ =>
        unionW (((nonEmptyGroups k size).zip
            (CleanKWay.groupStarts start (nonEmptyGroups k size))).map
          (fun gs => setRandomRecursiveW rho k fuel gs.2 gs.1 (depth + 1))) key)

/-- `KWayNetwork.set_random_switches()`. -/
def setRandomSwitchesW (rho : WKey → Nat → List Nat) (n k : Nat) : WTable :=
  setRandomRecursiveW rho k n 0 n 0

/-- A concrete oracle for an `n = 4, k = 2` network: the group shuffle at the
root and the base switch of the second group draw the transposition `[1, 0]`,
every other draw is the identity. -/
def swapTwoRho : WKey → Nat → List Nat :=
  fun key m =>
    if key = ⟨0, 0, WTag.groups⟩ then [1, 0]
    else if key = ⟨1, 2, WTag.sz 2⟩ then [1, 0]
    else List.range m

/-- The identity oracle: every draw is `0..m-1` unshuffled. -/
def idRho : WKey → Nat → List Nat := fun _ m => List.range m

end KWayRoute

namespace StrideWaksman

/-- `get_switch_bit(level, position)`: deterministic bit
`(level * 1000 + position) % 100 < 50`. -/
def getSwitchBit (level position : Nat) : Bool :=
  (level * 1000 + position) % 100 < 50

/-- `swap_elements`: swap `array[idx1]` and `array[idx2]` when the bit is set. -/
def swapElements [Inhabited α] (array : List α) (idx1 idx2 : Nat) (swap : Bool) : List α :=
  if swap then
    (array.set idx1 (array.getD idx2 default)).set idx2 (array.getD idx1 default)
  else array

/-- One row of switches: for each `i` in `idxs`, check the bound on
`idx2 = start + (2*i+1) * stride` (raising `IndexError`, i.e. `none`, when it
is out of range) and then conditionally swap the pair.  The switch bits are
drawn from `bits`; the class instance uses `getSwitchBit`. -/
def switchRow [Inhabited α] (bits : Nat → Nat → Bool) (level start stride : Nat)
    (idxs : List Nat) (array : List α) : Option (List α) :=
  idxs.foldlM (fun arr i =>
    if arr.length ≤ start + (i * 2 + 1) * stride then none
    else some (swapElements arr (start + i * 2 * stride) (start + (i * 2 + 1) * stride)
      (bits level (start + i * 2 * stride)))) array

/-- `WaksmanShuffle.waksman_recursive(array, start, stride, n, level)`: the
stride/interleaving variant.  `none` models a raised `IndexError`. -/
def waksmanRecursive [Inhabited α] (bits : Nat → Nat → Bool) :
    Nat → List α → Nat → Nat → Nat → Nat → Option (List α)
  | 0, array, _, _, _, _ => some array
  | fuel + 1, array, start, stride, n, level =>
    if n ≤ 1 then some array
    else if n = 2 then
      if array.length ≤ start + stride then none
      else some (swapElements array start (start + stride) (bits level start))
    else
      (switchRow bits level start stride (List.range (n / 2)) array).bind (fun a1 =>
      (waksmanRecursive bits fuel a1 start (stride * 2)
          (if n % 2 = 1 then (n + 1) / 2 else n / 2) (level + 1)).bind (fun a2 =>
      (waksmanRecursive bits fuel a2 (start + stride) (stride * 2)
          (if n % 2 = 0 then n / 2
           else (if n % 2 = 1 then (n + 1) / 2 else n / 2) - 1) (level + 1)).bind (fun a3 =>
      switchRow bits (level + 10000) start stride
        (List.range' 1 ((if n % 2 = 1 then (n + 1) / 2 else n / 2) - 1)) a3)))

/-- `WaksmanShuffle.shuffle(array)`. -/
def shuffle [Inhabited α] (bits : Nat → Nat → Bool) (array : List α) : Option (List α) :=
  waksmanRecursive bits array.length array 0 1 array.length 0

end StrideWaksman

namespace FixedWaksman

/-- `WaksmanShuffleFixed.waksman_recursive`: same skeleton as the stride
variant, but with `n` meaning "size of my group": the top subnetwork gets the
extra element when `n` is odd, the bottom always gets `n / 2`, and the output
switches are indexed by the original pair count `n / 2`, not the adjusted
top size. -/
def waksmanRecursive [Inhabited α] (bits : Nat → Nat → Bool) :
    Nat → List α → Nat → Nat → Nat → Nat → Option (List α)
  | 0, array, _, _, _, _ => some array
  | fuel + 1, array, start, stride, n, level =>
    if n ≤ 1 then some array
    else if n = 2 then
      if array.length ≤ start + stride then none
      else some (StrideWaksman.swapElements array start (start + stride) (bits level start))
    else
      (StrideWaksman.switchRow bits level start stride (List.range (n / 2)) array).bind
        (fun a1 =>
      (waksmanRecursive bits fuel a1 start (stride * 2)
          (if n % 2 = 0 then n / 2 else n / 2 + 1) (level + 1)).bind (fun a2 =>
      (waksmanRecursive bits fuel a2 (start + stride) (stride * 2) (n / 2) (level + 1)).bind
        (fun a3 =>
      StrideWaksman.switchRow bits (level + 10000) start stride
        (List.range' 1 (n / 2 - 1)) a3)))

/-- `WaksmanShuffleFixed.shuffle(array)`. -/
def shuffle [Inhabited α] (bits : Nat → Nat → Bool) (array : List α) : Option (List α) :=
  waksmanRecursive bits array.length array 0 1 array.length 0

end FixedWaksman

/-! ## General list lemmas -/

theorem map_getD_range_self {α : Type u} (l : List α) (d : α) :
    (List.range l.length).map (fun i => l.getD i d) = l := by
  induction l with
  | nil => simp
  | cons a t ih =>
    rw [List.length_cons, List.range_succ_eq_map, List.map_cons, List.map_map]
    have h2 : (List.range t.length).map ((fun i => (a :: t).getD i d) ∘ Nat.succ)
        = (List.range t.length).map (fun i => t.getD i d) :=
      List.map_congr_left (fun c _ => List.getD_cons_succ)
    rw [h2, ih, List.getD_cons_zero]

theorem map_getD_range_eq {α : Type u} (l : List α) (d : α) (n : Nat) (h : l.length = n) :
    (List.range n).map (fun i => l.getD i d) = l := by
  subst h; exact map_getD_range_self l d

theorem getD_lt_of_perm_range {p : List Nat} {n : Nat} (hp : p.Perm (List.range n))
    {i : Nat} (hi : i < n) : p.getD i 0 < n := by
  have hl : p.length = n := by simpa using hp.length_eq
  have hiL : i < p.length := hl ▸ hi
  have hmem : p.getD i 0 ∈ p := by
    rw [List.getD_eq_getElem p 0 hiL]
    exact List.getElem_mem hiL
  have := hp.mem_iff.mp hmem
  exact List.mem_range.mp this

theorem shuffle_perm_self {α : Type u} (l : List α) (d : α) (p : List Nat)
    (hp : p.Perm (List.range l.length)) :
    ((List.range l.length).map (fun i => l.getD (p.getD i 0) d)).Perm l := by
  have hl : p.length = l.length := by simpa using hp.length_eq
  have h1 : (List.range l.length).map (fun i => p.getD i 0) = p :=
    map_getD_range_eq p 0 l.length hl
  have h2 : (List.range l.length).map (fun i => l.getD (p.getD i 0) d)
      = ((List.range l.length).map (fun i => p.getD i 0)).map (fun j => l.getD j d) := by
    rw [List.map_map]
    rfl
  rw [h2, h1]
  have h4 := hp.map (fun j => l.getD j d)
  simpa only [map_getD_range_self] using h4

theorem getD_map_comm {α : Type u} {β : Type v} (f : α → β) (l : List α)
    (d : α) (e : β) {j : Nat} (hj : j < l.length) :
    (l.map f).getD j e = f (l.getD j d) := by
  have hj2 : j < (l.map f).length := by simpa using hj
  rw [List.getD_eq_getElem _ _ hj2, List.getD_eq_getElem _ _ hj, List.getElem_map]

theorem flatten_map_nil {α : Type u} {ι : Type w} (xs : List ι) :
    (xs.map (fun _ => ([] : List α))).flatten = [] := by
  induction xs with
  | nil => rfl
  | cons x t ih => simpa using ih

theorem filterMap_cons_toList {α : Type u} {β : Type v} (f : α → Option β) (a : α) (l : List α) :
    (a :: l).filterMap f = (f a).toList ++ l.filterMap f := by
  cases h : f a <;> simp [List.filterMap_cons, h]

theorem flatten_map_toList {α : Type u} {β : Type v} (f : α → Option β) (xs : List α) :
    (xs.map (fun x => (f x).toList)).flatten = xs.filterMap f := by
  induction xs with
  | nil => rfl
  | cons x t ih => rw [List.map_cons, List.flatten_cons, ih, filterMap_cons_toList]

theorem flatten_map_append_perm {α : Type u} {ι : Type w} (xs : List ι) (a b : ι → List α) :
    ((xs.map (fun j => a j ++ b j)).flatten).Perm
      ((xs.map a).flatten ++ (xs.map b).flatten) := by
  induction xs with
  | nil => rfl
  | cons x t ih =>
    simp only [List.map_cons, List.flatten_cons]
    refine ((ih.append_left (a x ++ b x)).trans ?_)
    rw [List.append_assoc, List.append_assoc]
    refine List.Perm.append_left (a x) ?_
    rw [← List.append_assoc, ← List.append_assoc]
    exact List.Perm.append_right ((t.map b).flatten) (List.perm_append_comm)

theorem flatten_congr_perm {α : Type u} {ι : Type w} (ls : List ι) (f g : ι → List α)
    (h : ∀ x ∈ ls, (f x).Perm (g x)) :
    ((ls.map f).flatten).Perm ((ls.map g).flatten) := by
  induction ls with
  | nil => rfl
  | cons x t ih =>
    simp only [List.map_cons, List.flatten_cons]
    exact (h x (List.mem_cons_self x t)).append
      (ih (fun y hy => h y (List.mem_cons_of_mem x hy)))

theorem flatten_filterMap_swap {α : Type u} {ι : Type w} {σ : Type x}
    (rows : List ι) (cols : List σ) (cell : ι → σ → Option α) :
    ((rows.map (fun j => cols.filterMap (fun c => cell j c))).flatten).Perm
      ((cols.map (fun c => rows.filterMap (fun j => cell j c))).flatten) := by
  induction cols generalizing rows with
  | nil =>
    simp only [List.filterMap_nil, List.map_nil, List.flatten_nil]
    rw [flatten_map_nil]
  | cons c cs ih =>
    have h1 : rows.map (fun j => (c :: cs).filterMap (fun x => cell j x))
        = rows.map (fun j => (cell j c).toList ++ cs.filterMap (fun x => cell j x)) :=
      List.map_congr_left (fun j _ => filterMap_cons_toList _ c cs)
    rw [h1]
    refine (flatten_map_append_perm rows _ _).trans ?_
    rw [List.map_cons, List.flatten_cons, flatten_map_toList]
    exact List.Perm.append (List.Perm.refl _) (ih rows)

theorem filterMap_range_if {α : Type u} (M len : Nat) (h : len ≤ M) (e : Nat → α) :
    (List.range M).filterMap (fun j => if j < len then some (e j) else none)
      = (List.range len).map e := by
  have hM : M = len + (M - len) := by omega
  rw [hM, List.range_add, List.filterMap_append]
  have h1 : (List.range len).filterMap (fun j => if j < len then some (e j) else none)
      = (List.range len).filterMap (fun j => some (e j)) := by
    refine List.filterMap_congr (fun j hj => ?_)
    rw [if_pos (List.mem_range.mp hj)]
  have h2 : ((List.range (M - len)).map (fun x => len + x)).filterMap
      (fun j => if j < len then some (e j) else none) = [] := by
    rw [List.filterMap_map]
    refine List.filterMap_eq_nil.mpr (fun j _ => ?_)
    simp only [Function.comp]
    rw [if_neg (by omega)]
  rw [h1, h2, List.append_nil]
  exact congrFun (List.filterMap_eq_map e) (List.range len)

theorem filterMap_range_getElem {α : Type u} (g : List α) (d : α) (M : Nat)
    (h : g.length ≤ M) :
    (List.range M).filterMap (fun pos => g[pos]?) = g := by
  have h1 : (List.range M).filterMap (fun pos => g[pos]?)
      = (List.range M).filterMap
          (fun pos => if pos < g.length then some (g.getD pos d) else none) := by
    refine List.filterMap_congr (fun pos _ => ?_)
    by_cases hp : pos < g.length
    · rw [if_pos hp, List.getElem?_eq_getElem hp, List.getD_eq_getElem _ _ hp]
    · rw [if_neg hp, List.getElem?_eq_none (by omega)]
  rw [h1, filterMap_range_if M g.length h, map_getD_range_self]

theorem getD_map_range {α : Type u} (f : Nat → α) {N c : Nat} (hc : c < N) (d : α) :
    ((List.range N).map f).getD c d = f c := by
  have h1 : c < ((List.range N).map f).length := by simpa using hc
  rw [List.getD_eq_getElem _ _ h1, List.getElem_map, List.getElem_range]

/-! ## Chunk lemmas for the clean network -/

theorem numChunks_zero {k : Nat} (hk : 0 < k) : CleanKWay.numChunks k 0 = 0 := by
  unfold CleanKWay.numChunks
  exact Nat.div_eq_of_lt (by omega)

theorem numChunks_succ {k s : Nat} (hk : 0 < k) (hs : 0 < s) :
    CleanKWay.numChunks k s = CleanKWay.numChunks k (s - k) + 1 := by
  unfold CleanKWay.numChunks
  rcases le_or_lt k s with hks | hks
  · have h1 : s + k - 1 = (s - k) + k - 1 + k := by omega
    rw [h1, Nat.add_div_right _ hk]
  · have h1 : s - k = 0 := by omega
    have h2 : (0 + k - 1) / k = 0 := Nat.div_eq_of_lt (by omega)
    rw [h1, h2]
    have h3 : s + k - 1 = (s - 1) + k := by omega
    rw [h3, Nat.add_div_right _ hk, Nat.div_eq_of_lt (by omega)]

theorem toChunks_nil {α : Type u} {k : Nat} (hk : 0 < k) :
    CleanKWay.toChunks k ([] : List α) = [] := by
  unfold CleanKWay.toChunks
  rw [List.length_nil, numChunks_zero hk, List.range_zero, List.map_nil]

theorem toChunks_cons_eq {α : Type u} {k : Nat} (hk : 0 < k) (l : List α) (hl : l ≠ []) :
    CleanKWay.toChunks k l = l.take k :: CleanKWay.toChunks k (l.drop k) := by
  have hlen : 0 < l.length := List.length_pos.mpr hl
  unfold CleanKWay.toChunks
  rw [numChunks_succ hk hlen, List.range_succ_eq_map, List.map_cons, List.map_map,
    List.length_drop]
  refine congrArg₂ List.cons ?_ ?_
  · rw [Nat.mul_zero, List.drop_zero]
  · refine List.map_congr_left (fun c _ => ?_)
    show (l.drop (k * (c + 1))).take k = ((l.drop k).drop (k * c)).take k
    rw [Nat.mul_succ, List.drop_drop, Nat.add_comm (k * c) k]

theorem toChunks_flatten_aux {α : Type u} {k : Nat} (hk : 0 < k) :
    ∀ (N : Nat) (l : List α), CleanKWay.numChunks k l.length = N →
      (CleanKWay.toChunks k l).flatten = l := by
  intro N
  induction N with
  | zero =>
    intro l hN
    rcases eq_or_ne l [] with h | h
    · subst h; rw [toChunks_nil hk]; rfl
    · exfalso
      rw [numChunks_succ hk (List.length_pos.mpr h)] at hN
      exact Nat.succ_ne_zero _ hN
  | succ N ih =>
    intro l hN
    rcases eq_or_ne l [] with h | h
    · exfalso
      rw [h, List.length_nil, numChunks_zero hk] at hN
      exact (Nat.succ_ne_zero N).symm hN
    · rw [numChunks_succ hk (List.length_pos.mpr h)] at hN
      rw [toChunks_cons_eq hk l h, List.flatten_cons,
        ih (l.drop k) (by rw [List.length_drop]; omega), List.take_append_drop]

theorem toChunks_flatten {α : Type u} {k : Nat} (hk : 0 < k) (l : List α) :
    (CleanKWay.toChunks k l).flatten = l :=
  toChunks_flatten_aux hk _ l rfl

theorem toChunks_countP_aux {α : Type u} {k : Nat} (hk : 0 < k) :
    ∀ (N : Nat) (l : List α) (j : Nat), j < k → CleanKWay.numChunks k l.length = N →
      (CleanKWay.toChunks k l).countP (fun c => decide (j < c.length))
        = l.length / k + if j < l.length % k then 1 else 0 := by
  intro N
  induction N with
  | zero =>
    intro l j hj hN
    rcases eq_or_ne l [] with h | h
    · subst h
      rw [toChunks_nil hk]
      simp
    · exfalso
      rw [numChunks_succ hk (List.length_pos.mpr h)] at hN
      exact Nat.succ_ne_zero _ hN
  | succ N ih =>
    intro l j hj hN
    rcases eq_or_ne l [] with h | h
    · exfalso
      rw [h, List.length_nil, numChunks_zero hk] at hN
      exact (Nat.succ_ne_zero N).symm hN
    · have hlen : 0 < l.length := List.length_pos.mpr h
      rw [numChunks_succ hk hlen] at hN
      rw [toChunks_cons_eq hk l h, List.countP_cons,
        ih (l.drop k) j hj (by rw [List.length_drop]; omega)]
      rw [List.length_drop, List.length_take]
      rcases lt_or_le l.length k with hlk | hlk
      · have h0 : l.length - k = 0 := by omega
        have h1 : l.length / k = 0 := Nat.div_eq_of_lt hlk
        have h2 : l.length % k = l.length := Nat.mod_eq_of_lt hlk
        have h3 : min k l.length = l.length := by omega
        rw [h0, h1, h2, h3]
        simp [Nat.zero_div, Nat.zero_mod]
      · have h1 : l.length / k = (l.length - k) / k + 1 := Nat.div_eq_sub_div hk hlk
        have h2 : l.length % k = (l.length - k) % k := Nat.mod_eq_sub_mod hlk
        have h3 : min k l.length = k := by omega
        rw [h1, h2, h3]
        simp only [decide_eq_true_eq]
        rw [if_pos hj]
        omega

theorem toChunks_countP {α : Type u} {k : Nat} (hk : 0 < k) (l : List α) {j : Nat}
    (hj : j < k) :
    (CleanKWay.toChunks k l).countP (fun c => decide (j < c.length))
      = l.length / k + if j < l.length % k then 1 else 0 :=
  toChunks_countP_aux hk _ l j hj rfl

theorem toChunks_length {α : Type u} (k : Nat) (l : List α) :
    (CleanKWay.toChunks k l).length = CleanKWay.numChunks k l.length := by
  unfold CleanKWay.toChunks
  rw [List.length_map, List.length_range]

theorem toChunks_getD {α : Type u} {k : Nat} (l : List α) {c : Nat}
    (hc : c < CleanKWay.numChunks k l.length) :
    (CleanKWay.toChunks k l).getD c [] = (l.drop (k * c)).take k :=
  getD_map_range _ hc _

theorem toChunks_length_le {α : Type u} {k : Nat} {l : List α} {c : List α}
    (hc : c ∈ CleanKWay.toChunks k l) : c.length ≤ k := by
  unfold CleanKWay.toChunks at hc
  rcases List.mem_map.mp hc with ⟨i, _, hi⟩
  rw [← hi]
  exact (List.length_take_le _ _)

theorem toChunks_map {α : Type u} {β : Type v} (k : Nat) (f : α → β) (l : List α) :
    CleanKWay.toChunks k (l.map f) = (CleanKWay.toChunks k l).map (List.map f) := by
  unfold CleanKWay.toChunks
  rw [List.length_map, List.map_map]
  refine List.map_congr_left (fun c _ => ?_)
  show ((l.map f).drop (k * c)).take k = (((l.drop (k * c)).take k).map f)
  rw [← List.map_drop, ← List.map_take]

theorem mul_lt_of_lt_numChunks {k s c : Nat} (hk : 0 < k)
    (hc : c < CleanKWay.numChunks k s) : k * c < s := by
  unfold CleanKWay.numChunks at hc
  have h2 : (c + 1) * k ≤ ((s + k - 1) / k) * k := Nat.mul_le_mul_right k hc
  have h3 : ((s + k - 1) / k) * k ≤ s + k - 1 := Nat.div_mul_le_self _ _
  have h4 : c * k + k ≤ s + k - 1 := by
    have h5 := h2.trans h3
    rw [Nat.add_mul, Nat.one_mul] at h5
    exact h5
  rw [Nat.mul_comm]
  generalize c * k = A at h4 ⊢
  omega

/-! ## Group-size (partition) lemmas -/

theorem calculateGroupSizes_eq (k size : Nat) :
    CleanKWay.calculateGroupSizes k size
      = (List.range k).map (fun i => if i < size % k then size / k + 1 else size / k) := by
  unfold CleanKWay.calculateGroupSizes
  refine List.map_congr_left (fun i _ => ?_)
  by_cases h1 : i < size % k
  · rw [if_pos h1, if_pos h1]
  · rw [if_neg h1, if_neg h1]
    rcases Nat.eq_zero_or_pos (size / k) with h2 | h2
    · rw [h2, if_neg (lt_irrefl 0)]
    · rw [if_pos h2]

theorem calculateGroupSizes_length (k size : Nat) :
    (CleanKWay.calculateGroupSizes k size).length = k := by
  unfold CleanKWay.calculateGroupSizes
  rw [List.length_map, List.length_range]

theorem calculateGroupSizes_getD {k size i : Nat} (hi : i < k) :
    (CleanKWay.calculateGroupSizes k size).getD i 0
      = if i < size % k then size / k + 1 else size / k := by
  rw [calculateGroupSizes_eq]
  exact getD_map_range _ hi _

theorem sum_map_const_nat {ι : Type w} (l : List ι) (a : Nat) :
    (l.map (fun _ => a)).sum = l.length * a := by
  induction l with
  | nil => simp
  | cons x t ih => simp [ih, Nat.succ_mul]; omega

theorem sum_range_if (k r : Nat) (hr : r ≤ k) (a b : Nat) :
    ((List.range k).map (fun i => if i < r then a else b)).sum
      = r * a + (k - r) * b := by
  have hk2 : k = r + (k - r) := by omega
  rw [hk2, List.range_add, List.map_append, List.sum_append]
  have h1 : (List.range r).map (fun i => if i < r then a else b)
      = (List.range r).map (fun _ => a) :=
    List.map_congr_left (fun i hi => if_pos (List.mem_range.mp hi))
  have h2 : ((List.range (k - r)).map (fun x => r + x)).map
        (fun i => if i < r then a else b)
      = ((List.range (k - r)).map (fun x => r + x)).map (fun _ => b) :=
    List.map_congr_left (fun i hi => by
      rcases List.mem_map.mp hi with ⟨x, _, hx⟩
      exact if_neg (by omega))
  rw [h1, h2, sum_map_const_nat, sum_map_const_nat]
  simp only [List.length_map, List.length_range]
  have h3 : r + (k - r) - r = k - r := by omega
  rw [h3]

theorem calculateGroupSizes_sum {k : Nat} (size : Nat) (hk : 0 < k) :
    (CleanKWay.calculateGroupSizes k size).sum = size := by
  rw [calculateGroupSizes_eq,
    sum_range_if k (size % k) (le_of_lt (Nat.mod_lt _ hk)) _ _]
  have hdm : k * (size / k) + size % k = size := Nat.div_add_mod size k
  have h2 : (size % k) * (size / k + 1) = (size % k) * (size / k) + size % k := by ring
  have h3 : (k - size % k) * (size / k) + (size % k) * (size / k) = k * (size / k) := by
    rw [← Nat.add_mul, Nat.sub_add_cancel (le_of_lt (Nat.mod_lt _ hk))]
  rw [h2]
  generalize (size % k) * (size / k) = B at h3 ⊢
  generalize (k - size % k) * (size / k) = A at h3 ⊢
  generalize k * (size / k) = C at hdm h3
  omega

theorem calculateGroupSizes_lt {k size : Nat} (hk : 2 ≤ k) (hks : k < size) :
    ∀ m ∈ CleanKWay.calculateGroupSizes k size, m < size := by
  intro m hm
  rw [calculateGroupSizes_eq] at hm
  rcases List.mem_map.mp hm with ⟨i, _, hi⟩
  have hub : m ≤ size / k + 1 := by rw [← hi]; split_ifs <;> omega
  have h1 : size / k ≤ size / 2 := Nat.div_le_div_left hk (by omega)
  generalize size / k = A at hub h1
  omega

/-! ## Group-start (scanl) lemmas -/

theorem groupStarts_nil (start : Nat) :
    CleanKWay.groupStarts start [] = [start] := rfl

theorem groupStarts_cons (start a : Nat) (rest : List Nat) :
    CleanKWay.groupStarts start (a :: rest)
      = start :: CleanKWay.groupStarts (start + a) rest := by
  unfold CleanKWay.groupStarts
  rw [List.scanl_cons]
  rfl

theorem zip_groupStarts_bound :
    ∀ (lens : List Nat) (start : Nat) (m s : Nat),
      (m, s) ∈ lens.zip (CleanKWay.groupStarts start lens) →
      start ≤ s ∧ s + m ≤ start + lens.sum := by
  intro lens
  induction lens with
  | nil => intro start m s h; simp [CleanKWay.groupStarts] at h
  | cons a rest ih =>
    intro start m s h
    rw [groupStarts_cons, List.zip_cons_cons] at h
    rcases List.mem_cons.mp h with h1 | h1
    · have hma : m = a ∧ s = start := by
        constructor <;> [exact congrArg Prod.fst h1; exact congrArg Prod.snd h1]
      rw [List.sum_cons]
      omega
    · have h2 := ih (start + a) m s h1
      rw [List.sum_cons]
      omega

/-! ## Union-of-tables lemmas -/

theorem unionTables_cons (t : CleanKWay.SwitchTable) (ts : List CleanKWay.SwitchTable)
    (key : CleanKWay.SwitchKey) :
    CleanKWay.unionTables (t :: ts) key
      = (t key).orElse (fun _ => CleanKWay.unionTables ts key) := rfl

theorem unionTables_none (ts : List CleanKWay.SwitchTable) (key : CleanKWay.SwitchKey)
    (h : ∀ t ∈ ts, t key = none) : CleanKWay.unionTables ts key = none := by
  induction ts with
  | nil => rfl
  | cons t rest ih =>
    rw [unionTables_cons, h t (List.mem_cons_self t rest)]
    exact ih (fun u hu => h u (List.mem_cons_of_mem t hu))

theorem unionTables_some {ts : List CleanKWay.SwitchTable} {key : CleanKWay.SwitchKey}
    {p : List Nat} (h : CleanKWay.unionTables ts key = some p) :
    ∃ t ∈ ts, t key = some p := by
  induction ts with
  | nil => exact absurd h (by simp [CleanKWay.unionTables])
  | cons t rest ih =>
    rw [unionTables_cons] at h
    cases ht : t key with
    | none =>
      rw [ht] at h
      rcases ih h with ⟨u, hu, hup⟩
      exact ⟨u, List.mem_cons_of_mem t hu, hup⟩
    | some q =>
      rw [ht] at h
      exact ⟨t, List.mem_cons_self t rest, ht.trans h⟩

theorem unionTables_pick :
    ∀ (lens : List Nat) (start0 : Nat) (F : Nat × Nat → CleanKWay.SwitchTable)
      (key : CleanKWay.SwitchKey),
      (∀ gs ∈ lens.zip (CleanKWay.groupStarts start0 lens), ∀ p, F gs key = some p →
        gs.2 ≤ key.start ∧ key.start < gs.2 + gs.1) →
      ∀ m s, (m, s) ∈ lens.zip (CleanKWay.groupStarts start0 lens) →
        s ≤ key.start → key.start < s + m →
        CleanKWay.unionTables ((lens.zip (CleanKWay.groupStarts start0 lens)).map F) key
          = F (m, s) key := by
  intro lens
  induction lens with
  | nil => intro start0 F key _ m s hmem _ _; simp [CleanKWay.groupStarts] at hmem
  | cons a rest ih =>
    intro start0 F key hcone m s hmem hs1 hs2
    rw [groupStarts_cons, List.zip_cons_cons] at hmem hcone
    rw [groupStarts_cons, List.zip_cons_cons, List.map_cons, unionTables_cons]
    rcases List.mem_cons.mp hmem with h1 | h1
    · have hma : m = a ∧ s = start0 := by
        constructor <;> [exact congrArg Prod.fst h1; exact congrArg Prod.snd h1]
      rw [← h1]
      cases hFa : F (m, s) key with
      | some q => rfl
      | none =>
        show CleanKWay.unionTables _ key = none
        apply unionTables_none
        intro t ht
        rcases List.mem_map.mp ht with ⟨gs, hgs, hgst⟩
        cases hT : t key with
        | none => rfl
        | some p =>
          exfalso
          have hcone2 := hcone gs (List.mem_cons_of_mem _ hgs) p (by rw [hgst]; exact hT)
          have hlb := (zip_groupStarts_bound rest (start0 + a) gs.1 gs.2
            (by rwa [← Prod.mk.eta (p := gs)] at hgs)).1
          omega
    · have hub := (zip_groupStarts_bound rest (start0 + a) m s h1).1
      cases hFa : F (a, start0) key with
      | none =>
        show CleanKWay.unionTables _ key = F (m, s) key
        exact ih (start0 + a) F key
          (fun gs hgs => hcone gs (List.mem_cons_of_mem _ hgs)) m s h1 hs1 hs2
      | some q =>
        exfalso
        have hcone2 := hcone (a, start0) (List.mem_cons_self _ _) q hFa
        omega

/-! ## Distribute-step lemmas -/

theorem length_filterMap_if {α : Type u} {ι : Type w} (l : List ι) (P : ι → Prop)
    [DecidablePred P] (E : ι → α) :
    (l.filterMap (fun x => if P x then some (E x) else none)).length
      = l.countP (fun x => decide (P x)) := by
  induction l with
  | nil => rfl
  | cons x t ih =>
    by_cases h : P x <;>
      simp [List.filterMap_cons, h, ih, List.countP_cons]

theorem countP_enum_snd {α : Type u} (l : List α) (p : α → Bool) :
    l.enum.countP (fun ic => p ic.2) = l.countP p := by
  conv_rhs => rw [← List.enum_map_snd l]
  rw [List.countP_map]
  rfl

theorem mem_enum_toChunks {α : Type u} {k : Nat} {sub : List α} {ic : Nat × List α}
    (h : ic ∈ (CleanKWay.toChunks k sub).enum) :
    ic.1 < CleanKWay.numChunks k sub.length ∧ ic.2 = (sub.drop (k * ic.1)).take k := by
  have h2 := List.mem_enum_iff_getElem?.mp h
  have h3 : ic.1 < (CleanKWay.toChunks k sub).length := by
    by_contra hcontra
    rw [List.getElem?_eq_none (by omega)] at h2
    exact Option.noConfusion h2
  have h4 : ic.1 < CleanKWay.numChunks k sub.length := by
    rwa [toChunks_length] at h3
  refine ⟨h4, ?_⟩
  have h5 : (CleanKWay.toChunks k sub).getD ic.1 [] = ic.2 := by
    rw [List.getD_eq_getElem?_getD, h2]
    rfl
  rw [← h5, toChunks_getD _ h4]

theorem applyInputSwitches_lengths {α : Type u} [Inhabited α] (sw : CleanKWay.SwitchTable)
    (k start depth : Nat) (sub : List α) (hk : 0 < k) :
    (CleanKWay.applyInputSwitches sw k start depth sub).map List.length
      = CleanKWay.calculateGroupSizes k sub.length := by
  unfold CleanKWay.applyInputSwitches
  rw [calculateGroupSizes_eq, List.map_map]
  refine List.map_congr_left (fun j hj => ?_)
  have hjk : j < k := List.mem_range.mp hj
  show (List.filterMap _ _).length = _
  rw [length_filterMap_if]
  have h6 : List.countP (fun x : Nat × List α => decide (j < x.2.length))
        ((CleanKWay.toChunks k sub).enum)
      = List.countP (fun c : List α => decide (j < c.length)) (CleanKWay.toChunks k sub) := by
    conv_rhs => rw [← List.enum_map_snd (CleanKWay.toChunks k sub)]
    rw [List.countP_map]
    rfl
  rw [h6, toChunks_countP hk sub hjk]
  split_ifs <;> omega

theorem applyInputSwitches_flatten_perm {α : Type u} [Inhabited α]
    (sw : CleanKWay.SwitchTable) (k start depth : Nat) (sub : List α) (hk : 0 < k)
    (hin : ∀ c, c < CleanKWay.numChunks k sub.length →
      (CleanKWay.lookupPerm sw ⟨depth, start + k * c, CleanKWay.SwitchRole.input⟩
          (min k (sub.length - k * c))).Perm (List.range (min k (sub.length - k * c)))) :
    ((CleanKWay.applyInputSwitches sw k start depth sub).flatten).Perm sub := by
  unfold CleanKWay.applyInputSwitches
  refine (flatten_filterMap_swap (List.range k) ((CleanKWay.toChunks k sub).enum) _).trans ?_
  have hchunk : ∀ ic ∈ (CleanKWay.toChunks k sub).enum,
      ((List.range k).filterMap (fun j =>
        if j < ic.2.length then
          some (ic.2.getD ((CleanKWay.lookupPerm sw
            ⟨depth, start + k * ic.1, CleanKWay.SwitchRole.input⟩ ic.2.length).getD j 0) default)
        else none)).Perm ic.2 := by
    intro ic hic
    obtain ⟨hlt, hceq⟩ := mem_enum_toChunks hic
    have hlen : ic.2.length = min k (sub.length - k * ic.1) := by
      rw [hceq, List.length_take, List.length_drop]
    have hle : ic.2.length ≤ k := by omega
    rw [filterMap_range_if k ic.2.length hle _]
    refine shuffle_perm_self ic.2 default _ ?_
    rw [hlen]
    exact hin ic.1 hlt
  refine (flatten_congr_perm _ _ (fun ic => ic.2) hchunk).trans ?_
  have h4 : ((CleanKWay.toChunks k sub).enum.map (fun ic => ic.2)).flatten = sub := by
    rw [show (fun ic : Nat × List α => ic.2) = Prod.snd from rfl, List.enum_map_snd,
      toChunks_flatten hk]
  rw [h4]

/-! ## Collect-step lemmas -/

theorem perm_of_eq {α : Type u} {l1 l2 : List α} (h : l1 = l2) : l1.Perm l2 := by
  rw [h]

theorem le_foldr_max {l : List Nat} {x : Nat} (h : x ∈ l) : x ≤ l.foldr max 0 := by
  induction l with
  | nil => cases h
  | cons a t ih =>
    rw [List.foldr_cons]
    rcases List.mem_cons.mp h with h1 | h1
    · rw [h1]; exact le_max_left _ _
    · exact le_trans (ih h1) (le_max_right _ _)

theorem chunkAt_length {α : Type u} (gs : List (List α)) (pos : Nat) :
    (gs.filterMap (fun g => g[pos]?)).length
      = gs.countP (fun g => decide (pos < g.length)) := by
  rw [List.length_filterMap_eq_countP]
  refine List.countP_congr (fun g _ => ?_)
  by_cases h : pos < g.length
  · rw [List.getElem?_eq_getElem h]
    simp [h]
  · rw [List.getElem?_eq_none (by omega : g.length ≤ pos)]
    simp [h]

theorem applyOutputSwitches_perm {α : Type u} [Inhabited α] (sw : CleanKWay.SwitchTable)
    (k start depth : Nat) (gs : List (List α))
    (hout : ∀ pos, pos < (gs.map List.length).foldr max 0 →
      1 < (gs.filterMap (fun g => g[pos]?)).length →
      (CleanKWay.lookupPerm sw ⟨depth, start, CleanKWay.SwitchRole.output pos⟩
          (gs.filterMap (fun g => g[pos]?)).length).Perm
        (List.range (gs.filterMap (fun g => g[pos]?)).length)) :
    (CleanKWay.applyOutputSwitches sw k start depth gs).Perm gs.flatten := by
  unfold CleanKWay.applyOutputSwitches
  have hpointwise : ∀ pos ∈ List.range ((gs.map List.length).foldr max 0),
      (if (gs.filterMap (fun g => g[pos]?)).length = 1 then gs.filterMap (fun g => g[pos]?)
       else (List.range (gs.filterMap (fun g => g[pos]?)).length).map (fun i =>
         (gs.filterMap (fun g => g[pos]?)).getD
           ((CleanKWay.lookupPerm sw ⟨depth, start, CleanKWay.SwitchRole.output pos⟩
               (gs.filterMap (fun g => g[pos]?)).length).getD i 0) default)).Perm
        (gs.filterMap (fun g => g[pos]?)) := by
    intro pos hpos
    by_cases h1 : (gs.filterMap (fun g => g[pos]?)).length = 1
    · rw [if_pos h1]
    · rw [if_neg h1]
      rcases Nat.lt_or_ge (gs.filterMap (fun g => g[pos]?)).length 2 with h2 | h2
      · have h3 : (gs.filterMap (fun g => g[pos]?)).length = 0 := by omega
        have h4 : gs.filterMap (fun g => g[pos]?) = [] := List.length_eq_zero.mp h3
        refine perm_of_eq ?_
        rw [h4]
        simp
      · exact shuffle_perm_self _ default _ (hout pos (List.mem_range.mp hpos) h2)
  refine (flatten_congr_perm (List.range ((gs.map List.length).foldr max 0))
      _ (fun pos => gs.filterMap (fun g => g[pos]?)) hpointwise).trans ?_
  · refine (flatten_filterMap_swap (List.range ((gs.map List.length).foldr max 0)) gs
        (fun pos g => g[pos]?)).trans ?_
    refine perm_of_eq ?_
    have h5 : ∀ g ∈ gs,
        (List.range ((gs.map List.length).foldr max 0)).filterMap (fun pos => g[pos]?) = g :=
      fun g hg => filterMap_range_getElem g default _
        (le_foldr_max (List.mem_map.mpr ⟨g, hg, rfl⟩))
    calc (gs.map (fun g => (List.range ((gs.map List.length).foldr max 0)).filterMap
            (fun pos => g[pos]?))).flatten
        = (gs.map (fun g => g)).flatten := by
          exact congrArg List.flatten (List.map_congr_left h5)
      _ = gs.flatten := by rw [List.map_id']

theorem applyOutputSwitches_map {α : Type u} {β : Type v} [Inhabited α] [Inhabited β]
    (sw : CleanKWay.SwitchTable) (k start depth : Nat) (gs : List (List α)) (f : α → β)
    (hout : ∀ pos, pos < (gs.map List.length).foldr max 0 →
      1 < (gs.filterMap (fun g => g[pos]?)).length →
      (CleanKWay.lookupPerm sw ⟨depth, start, CleanKWay.SwitchRole.output pos⟩
          (gs.filterMap (fun g => g[pos]?)).length).Perm
        (List.range (gs.filterMap (fun g => g[pos]?)).length)) :
    CleanKWay.applyOutputSwitches sw k start depth (gs.map (List.map f))
      = (CleanKWay.applyOutputSwitches sw k start depth gs).map f := by
  unfold CleanKWay.applyOutputSwitches
  have hM : (gs.map (List.map f)).map List.length = gs.map List.length := by
    rw [List.map_map]
    exact List.map_congr_left (fun g _ => List.length_map g f)
  have hchunk : ∀ pos : Nat, (gs.map (List.map f)).filterMap (fun g => g[pos]?)
      = (gs.filterMap (fun g => g[pos]?)).map f := by
    intro pos
    rw [List.filterMap_map, List.map_filterMap]
    refine List.filterMap_congr (fun g _ => ?_)
    exact List.getElem?_map f g pos
  rw [hM, List.map_flatten, List.map_map]
  have hpw : ∀ pos ∈ List.range ((gs.map List.length).foldr max 0),
      (if ((gs.map (List.map f)).filterMap (fun g => g[pos]?)).length = 1 then
        (gs.map (List.map f)).filterMap (fun g => g[pos]?)
       else (List.range ((gs.map (List.map f)).filterMap (fun g => g[pos]?)).length).map
         (fun i => ((gs.map (List.map f)).filterMap (fun g => g[pos]?)).getD
           ((CleanKWay.lookupPerm sw ⟨depth, start, CleanKWay.SwitchRole.output pos⟩
               ((gs.map (List.map f)).filterMap (fun g => g[pos]?)).length).getD i 0) default))
      = List.map f
        (if (gs.filterMap (fun g => g[pos]?)).length = 1 then gs.filterMap (fun g => g[pos]?)
         else (List.range (gs.filterMap (fun g => g[pos]?)).length).map
           (fun i => (gs.filterMap (fun g => g[pos]?)).getD
             ((CleanKWay.lookupPerm sw ⟨depth, start, CleanKWay.SwitchRole.output pos⟩
                 (gs.filterMap (fun g => g[pos]?)).length).getD i 0) default)) := by
    intro pos hpos
    rw [hchunk pos, List.length_map]
    by_cases h1 : (gs.filterMap (fun g => g[pos]?)).length = 1
    · rw [if_pos h1, if_pos h1]
    · rw [if_neg h1, if_neg h1, List.map_map]
      rcases Nat.lt_or_ge (gs.filterMap (fun g => g[pos]?)).length 2 with h2 | h2
      · have h3 : (gs.filterMap (fun g => g[pos]?)).length = 0 := by omega
        rw [h3]
        simp
      · refine List.map_congr_left (fun i hi => ?_)
        have hiR : i < (gs.filterMap (fun g => g[pos]?)).length := List.mem_range.mp hi
        have hperm := hout pos (List.mem_range.mp hpos) h2
        have hidx : (CleanKWay.lookupPerm sw ⟨depth, start, CleanKWay.SwitchRole.output pos⟩
              (gs.filterMap (fun g => g[pos]?)).length).getD i 0
            < (gs.filterMap (fun g => g[pos]?)).length :=
          getD_lt_of_perm_range hperm hiR
        exact getD_map_comm f _ default default hidx
  exact congrArg List.flatten (List.map_congr_left hpw)

theorem applyInputSwitches_map {α : Type u} {β : Type v} [Inhabited α] [Inhabited β]
    (sw : CleanKWay.SwitchTable) (k start depth : Nat) (sub : List α) (f : α → β)
    (hk : 0 < k)
    (hin : ∀ c, c < CleanKWay.numChunks k sub.length →
      (CleanKWay.lookupPerm sw ⟨depth, start + k * c, CleanKWay.SwitchRole.input⟩
          (min k (sub.length - k * c))).Perm (List.range (min k (sub.length - k * c)))) :
    CleanKWay.applyInputSwitches sw k start depth (sub.map f)
      = (CleanKWay.applyInputSwitches sw k start depth sub).map (List.map f) := by
  unfold CleanKWay.applyInputSwitches
  rw [List.map_map]
  refine List.map_congr_left (fun j hj => ?_)
  show ((CleanKWay.toChunks k (sub.map f)).enum).filterMap (fun ic =>
      if j < ic.2.length then
        some (ic.2.getD ((CleanKWay.lookupPerm sw ⟨depth, start + k * ic.1,
          CleanKWay.SwitchRole.input⟩ ic.2.length).getD j 0) default)
      else none)
    = (((CleanKWay.toChunks k sub).enum).filterMap (fun ic =>
      if j < ic.2.length then
        some (ic.2.getD ((CleanKWay.lookupPerm sw ⟨depth, start + k * ic.1,
          CleanKWay.SwitchRole.input⟩ ic.2.length).getD j 0) default)
      else none)).map f
  rw [toChunks_map, List.enum_map, List.filterMap_map, List.map_filterMap]
  refine List.filterMap_congr (fun ic hic => ?_)
  obtain ⟨hlt, hceq⟩ := mem_enum_toChunks hic
  have hlen : ic.2.length = min k (sub.length - k * ic.1) := by
    rw [hceq, List.length_take, List.length_drop]
  obtain ⟨i, c⟩ := ic
  show (if j < (c.map f).length then
      some ((c.map f).getD ((CleanKWay.lookupPerm sw ⟨depth, start + k * i,
        CleanKWay.SwitchRole.input⟩ (c.map f).length).getD j 0) default)
    else none)
    = Option.map f (if j < c.length then
      some (c.getD ((CleanKWay.lookupPerm sw ⟨depth, start + k * i,
        CleanKWay.SwitchRole.input⟩ c.length).getD j 0) default)
    else none)
  rw [List.length_map]
  by_cases hcase : j < c.length
  · rw [if_pos hcase, if_pos hcase]
    have hperm : (CleanKWay.lookupPerm sw ⟨depth, start + k * i,
        CleanKWay.SwitchRole.input⟩ c.length).Perm (List.range c.length) := by
      rw [show c.length = min k (sub.length - k * i) from hlen]
      exact hin i hlt
    have hidx := getD_lt_of_perm_range hperm hcase
    show some ((c.map f).getD _ default) = some (f (c.getD _ default))
    exact congrArg some (getD_map_comm f c default default hidx)
  · rw [if_neg hcase, if_neg hcase]
    rfl

/-! ## Unfolding lemmas for the recursive applier and the well-formedness predicate -/

theorem permuteRecursive_succ_small {α : Type u} [Inhabited α] (sw : CleanKWay.SwitchTable)
    (k fuel start depth : Nat) (region : List α) (h : region.length ≤ 1) :
    CleanKWay.permuteRecursive sw k (fuel + 1) start depth region = region := by
  rw [CleanKWay.permuteRecursive, if_pos h]

theorem permuteRecursive_succ_base {α : Type u} [Inhabited α] (sw : CleanKWay.SwitchTable)
    (k fuel start depth : Nat) (region : List α) (h1 : ¬ region.length ≤ 1)
    (h2 : region.length ≤ k) :
    CleanKWay.permuteRecursive sw k (fuel + 1) start depth region
      = (List.range region.length).map (fun i =>
          region.getD ((CleanKWay.lookupPerm sw ⟨depth, start, CleanKWay.SwitchRole.base⟩
            region.length).getD i 0) default) := by
  rw [CleanKWay.permuteRecursive, if_neg h1, if_pos h2]

theorem permuteRecursive_succ_big {α : Type u} [Inhabited α] (sw : CleanKWay.SwitchTable)
    (k fuel start depth : Nat) (region : List α) (h1 : ¬ region.length ≤ 1)
    (h2 : ¬ region.length ≤ k) :
    CleanKWay.permuteRecursive sw k (fuel + 1) start depth region
      = CleanKWay.applyOutputSwitches sw k start depth
          (((CleanKWay.applyInputSwitches sw k start depth region).zip
              (CleanKWay.groupStarts start
                ((CleanKWay.applyInputSwitches sw k start depth region).map List.length))).map
            (fun gst => CleanKWay.permuteRecursive sw k fuel gst.2 (depth + 1) gst.1)) := by
  rw [CleanKWay.permuteRecursive, if_neg h1, if_neg h2]

theorem WFat_zero (sw : CleanKWay.SwitchTable) (k start size depth : Nat) :
    CleanKWay.WFat sw k 0 start size depth := by
  rw [CleanKWay.WFat]
  trivial

theorem WFat_succ_base {sw : CleanKWay.SwitchTable} {k fuel start size depth : Nat}
    (h1 : ¬ size ≤ 1) (h2 : size ≤ k)
    (h : CleanKWay.WFat sw k (fuel + 1) start size depth) :
    (CleanKWay.lookupPerm sw ⟨depth, start, CleanKWay.SwitchRole.base⟩ size).Perm
      (List.range size) := by
  rw [CleanKWay.WFat, if_neg h1, if_pos h2] at h
  exact h

theorem WFat_succ_big {sw : CleanKWay.SwitchTable} {k fuel start size depth : Nat}
    (h1 : ¬ size ≤ 1) (h2 : ¬ size ≤ k)
    (h : CleanKWay.WFat sw k (fuel + 1) start size depth) :
    (∀ c, c < CleanKWay.numChunks k size →
      (CleanKWay.lookupPerm sw ⟨depth, start + k * c, CleanKWay.SwitchRole.input⟩
          (min k (size - k * c))).Perm (List.range (min k (size - k * c)))) ∧
    (∀ pos, pos < (CleanKWay.calculateGroupSizes k size).foldr max 0 →
      1 < (CleanKWay.calculateGroupSizes k size).countP (fun g => pos < g) →
      (CleanKWay.lookupPerm sw ⟨depth, start, CleanKWay.SwitchRole.output pos⟩
          ((CleanKWay.calculateGroupSizes k size).countP (fun g => pos < g))).Perm
        (List.range ((CleanKWay.calculateGroupSizes k size).countP (fun g => pos < g)))) ∧
    (∀ gs ∈ (CleanKWay.calculateGroupSizes k size).zip
        (CleanKWay.groupStarts start (CleanKWay.calculateGroupSizes k size)),
      CleanKWay.WFat sw k fuel gs.2 gs.1 (depth + 1)) := by
  rw [CleanKWay.WFat, if_neg h1, if_neg h2] at h
  exact h

/-! ## Helper equalities about lengths -/

theorem countP_length_map {α : Type u} (gs : List (List α)) (pos : Nat) :
    gs.countP (fun g => decide (pos < g.length))
      = (gs.map List.length).countP (fun m => decide (pos < m)) := by
  rw [List.countP_map]
  rfl

theorem map_length_map_map {α : Type u} {β : Type v} (gs : List (List α)) (f : α → β) :
    (gs.map (List.map f)).map List.length = gs.map List.length := by
  rw [List.map_map]
  exact List.map_congr_left (fun g _ => List.length_map g f)

/-! ## Master theorem: with a well-formed switch table the recursive applier
permutes its region, and the positions it realizes are independent of the
payload (naturality in the array entries). -/

theorem permuteRecursive_perm_and_map {α : Type u} {β : Type v} [Inhabited α] [Inhabited β] :
    ∀ (fuel : Nat) (sw : CleanKWay.SwitchTable) (k start depth : Nat) (region : List α),
      2 ≤ k → region.length ≤ fuel →
      CleanKWay.WFat sw k fuel start region.length depth →
      (CleanKWay.permuteRecursive sw k fuel start depth region).Perm region ∧
      ∀ (f : α → β),
        CleanKWay.permuteRecursive sw k fuel start depth (region.map f)
          = (CleanKWay.permuteRecursive sw k fuel start depth region).map f := by
  intro fuel
  induction fuel with
  | zero =>
    intro sw k start depth region hk hfuel hwf
    have h0 : region = [] := List.length_eq_zero.mp (by omega)
    subst h0
    exact ⟨List.Perm.refl _, fun f => rfl⟩
  | succ fuel ih =>
    intro sw k start depth region hk hfuel hwf
    have hk0 : 0 < k := by omega
    by_cases h1 : region.length ≤ 1
    · refine ⟨?_, ?_⟩
      · rw [permuteRecursive_succ_small sw k fuel start depth region h1]
      · intro f
        rw [permuteRecursive_succ_small sw k fuel start depth region h1,
          permuteRecursive_succ_small sw k fuel start depth (region.map f)
            (by rw [List.length_map]; exact h1)]
    · by_cases h2 : region.length ≤ k
      · have hwfb := WFat_succ_base h1 h2 hwf
        refine ⟨?_, ?_⟩
        · rw [permuteRecursive_succ_base sw k fuel start depth region h1 h2]
          exact shuffle_perm_self region default _ hwfb
        · intro f
          rw [permuteRecursive_succ_base sw k fuel start depth region h1 h2,
            permuteRecursive_succ_base sw k fuel start depth (region.map f)
              (by rw [List.length_map]; exact h1) (by rw [List.length_map]; exact h2),
            List.length_map, List.map_map]
          refine List.map_congr_left (fun i hi => ?_)
          have hiR : i < region.length := List.mem_range.mp hi
          have hidx := getD_lt_of_perm_range hwfb hiR
          exact getD_map_comm f region default default hidx
      · obtain ⟨hin, hout, hchild⟩ := WFat_succ_big h1 h2 hwf
        have F1 : (CleanKWay.applyInputSwitches sw k start depth region).map List.length
            = CleanKWay.calculateGroupSizes k region.length :=
          applyInputSwitches_lengths sw k start depth region hk0
        set gs := CleanKWay.applyInputSwitches sw k start depth region with hgsdef
        set sizes := CleanKWay.calculateGroupSizes k region.length with hsizesdef
        set starts := CleanKWay.groupStarts start (gs.map List.length) with hstartsdef
        have hstarts2 : starts = CleanKWay.groupStarts start sizes := by
          rw [hstartsdef, F1]
        have hlenstarts : gs.length ≤ starts.length := by
          rw [hstartsdef]
          unfold CleanKWay.groupStarts
          rw [List.length_scanl, List.length_map]
          omega
        have hmem : ∀ g s, (g, s) ∈ gs.zip starts →
            g.length < region.length ∧ g.length ≤ fuel ∧
            CleanKWay.WFat sw k fuel s g.length (depth + 1) := by
          intro g s hgs
          have hgmem : g ∈ gs := (List.of_mem_zip hgs).1
          have hglen : g.length ∈ sizes := by
            rw [← F1]
            exact List.mem_map.mpr ⟨g, hgmem, rfl⟩
          have hlt : g.length < region.length := by
            have hglen2 := hglen
            rw [hsizesdef] at hglen2
            exact calculateGroupSizes_lt hk (by omega) _ hglen2
          have hmem2 : (g.length, s) ∈ sizes.zip (CleanKWay.groupStarts start sizes) := by
            have h3 : (g.length, s) ∈ (gs.map List.length).zip starts := by
              rw [List.zip_map_left]
              exact List.mem_map.mpr ⟨(g, s), hgs, rfl⟩
            rwa [F1, hstarts2] at h3
          exact ⟨hlt, by omega, hchild _ hmem2⟩
        set gs2 := (gs.zip starts).map
          (fun gst => CleanKWay.permuteRecursive sw k fuel gst.2 (depth + 1) gst.1)
          with hgs2def
        have hperm2 : ∀ gst ∈ gs.zip starts,
            (CleanKWay.permuteRecursive sw k fuel gst.2 (depth + 1) gst.1).Perm gst.1 := by
          intro gst hgst
          obtain ⟨hlt, hfuel2, hwf2⟩ := hmem gst.1 gst.2 (by rw [Prod.mk.eta]; exact hgst)
          exact (ih sw k gst.2 (depth + 1) gst.1 hk hfuel2 hwf2).1
        have hlen2 : gs2.map List.length = sizes := by
          rw [hgs2def, List.map_map]
          have e1 : (List.length ∘ fun gst : List α × Nat =>
              CleanKWay.permuteRecursive sw k fuel gst.2 (depth + 1) gst.1)
              = (fun gst : List α × Nat =>
                (CleanKWay.permuteRecursive sw k fuel gst.2 (depth + 1) gst.1).length) := rfl
          rw [e1]
          have e2 : (gs.zip starts).map (fun gst =>
              (CleanKWay.permuteRecursive sw k fuel gst.2 (depth + 1) gst.1).length)
              = (gs.zip starts).map (fun gst => gst.1.length) :=
            List.map_congr_left (fun gst hgst => (hperm2 gst hgst).length_eq)
          rw [e2]
          have e3 : (fun gst : List α × Nat => gst.1.length)
              = (List.length ∘ Prod.fst) := rfl
          rw [e3, ← List.map_map, List.map_fst_zip gs starts hlenstarts, F1]
        have hout2 : ∀ pos, pos < (gs2.map List.length).foldr max 0 →
            1 < (gs2.filterMap (fun g => g[pos]?)).length →
            (CleanKWay.lookupPerm sw ⟨depth, start, CleanKWay.SwitchRole.output pos⟩
                (gs2.filterMap (fun g => g[pos]?)).length).Perm
              (List.range (gs2.filterMap (fun g => g[pos]?)).length) := by
          intro pos hpos hlen1
          have hcnt : (gs2.filterMap (fun g => g[pos]?)).length
              = sizes.countP (fun m => decide (pos < m)) := by
            rw [chunkAt_length, countP_length_map, hlen2]
          rw [hcnt] at hlen1 ⊢
          rw [hlen2] at hpos
          exact hout pos hpos hlen1
        have hbig := permuteRecursive_succ_big sw k fuel start depth region h1 h2
        rw [← hgsdef, ← hstartsdef, ← hgs2def] at hbig
        have hF2 : (gs.flatten).Perm region := by
          rw [hgsdef]
          exact applyInputSwitches_flatten_perm sw k start depth region hk0 hin
        refine ⟨?_, ?_⟩
        · rw [hbig]
          refine (applyOutputSwitches_perm sw k start depth gs2 hout2).trans ?_
          refine List.Perm.trans ?_ hF2
          rw [hgs2def]
          refine (flatten_congr_perm (gs.zip starts) _ Prod.fst hperm2).trans ?_
          exact perm_of_eq (congrArg List.flatten (List.map_fst_zip gs starts hlenstarts))
        · intro f
          have h1m : ¬ (region.map f).length ≤ 1 := by rw [List.length_map]; exact h1
          have h2m : ¬ (region.map f).length ≤ k := by rw [List.length_map]; exact h2
          rw [permuteRecursive_succ_big sw k fuel start depth (region.map f) h1m h2m, hbig]
          have hS5 : CleanKWay.applyInputSwitches sw k start depth (region.map f)
              = gs.map (List.map f) := by
            rw [hgsdef]
            exact applyInputSwitches_map sw k start depth region f hk0 hin
          rw [hS5, map_length_map_map, ← hstartsdef, List.zip_map_left, List.map_map]
          have hnat : ∀ gst ∈ gs.zip starts,
              CleanKWay.permuteRecursive sw k fuel gst.2 (depth + 1) (gst.1.map f)
                = (CleanKWay.permuteRecursive sw k fuel gst.2 (depth + 1) gst.1).map f := by
            intro gst hgst
            obtain ⟨hlt, hfuel2, hwf2⟩ := hmem gst.1 gst.2 (by rw [Prod.mk.eta]; exact hgst)
            exact (ih sw k gst.2 (depth + 1) gst.1 hk hfuel2 hwf2).2 f
          have e4 : (gs.zip starts).map
              ((fun gst : List β × Nat =>
                  CleanKWay.permuteRecursive sw k fuel gst.2 (depth + 1) gst.1)
                ∘ Prod.map (List.map f) id)
              = gs2.map (List.map f) := by
            rw [hgs2def, List.map_map]
            refine List.map_congr_left (fun gst hgst => ?_)
            obtain ⟨g, s⟩ := gst
            exact hnat (g, s) hgst
          rw [e4]
          exact applyOutputSwitches_map sw k start depth gs2 f hout2

/-! ## Lemmas about the builder's table -/

theorem findSome?_range_unique {β : Type v} {N c0 : Nat} (f : Nat → Option β) (hc : c0 < N)
    (huniq : ∀ c, c < N → c ≠ c0 → f c = none) :
    (List.range N).findSome? f = f c0 := by
  have hsplit : N = c0 + (N - c0) := by omega
  rw [hsplit, List.range_add, List.findSome?_append]
  have hfirst : (List.range c0).findSome? f = none :=
    List.findSome?_eq_none_iff.mpr (fun c hcmem =>
      huniq c (by have := List.mem_range.mp hcmem; omega)
        (by have := List.mem_range.mp hcmem; omega))
  rw [hfirst, Option.none_or, List.findSome?_map]
  have h2 : N - c0 = (N - c0 - 1) + 1 := by omega
  rw [h2, List.range_succ_eq_map, List.findSome?_cons]
  cases hf : f c0 with
  | some b =>
    have h4 : (f ∘ fun x => c0 + x) 0 = some b := by
      simp only [Function.comp]
      rw [Nat.add_zero]
      exact hf
    rw [h4]
  | none =>
    have h4 : (f ∘ fun x => c0 + x) 0 = none := by
      simp only [Function.comp]
      rw [Nat.add_zero]
      exact hf
    rw [h4]
    show ((List.range (N - c0 - 1)).map Nat.succ).findSome? (f ∘ fun x => c0 + x) = none
    refine List.findSome?_eq_none_iff.mpr (fun x hx => ?_)
    rcases List.mem_map.mp hx with ⟨c, hcmem, hceq⟩
    have hclt := List.mem_range.mp hcmem
    show f (c0 + x) = none
    refine huniq (c0 + x) (by omega) (by omega)

theorem genRec_zero_apply (rho : CleanKWay.SwitchKey → Nat → List Nat) (k : Nat)
    (start size depth : Nat) (key : CleanKWay.SwitchKey) :
    CleanKWay.generateSwitchesRecursive rho k 0 start size depth key = none := rfl

theorem genRec_succ_small_apply (rho : CleanKWay.SwitchKey → Nat → List Nat)
    (k fuel start size depth : Nat) (key : CleanKWay.SwitchKey) (h1 : size ≤ 1) :
    CleanKWay.generateSwitchesRecursive rho k (fuel + 1) start size depth key = none := by
  rw [CleanKWay.generateSwitchesRecursive, if_pos h1]

theorem genRec_succ_base_apply (rho : CleanKWay.SwitchKey → Nat → List Nat)
    (k fuel start size depth : Nat) (key : CleanKWay.SwitchKey)
    (h1 : ¬ size ≤ 1) (h2 : size ≤ k) :
    CleanKWay.generateSwitchesRecursive rho k (fuel + 1) start size depth key
      = (if key = ⟨depth, start, CleanKWay.SwitchRole.base⟩ then some (rho key size)
         else none) := by
  rw [CleanKWay.generateSwitchesRecursive, if_neg h1, if_pos h2]

theorem genRec_succ_big_apply (rho : CleanKWay.SwitchKey → Nat → List Nat)
    (k fuel start size depth : Nat) (key : CleanKWay.SwitchKey)
    (h1 : ¬ size ≤ 1) (h2 : ¬ size ≤ k) :
    CleanKWay.generateSwitchesRecursive rho k (fuel + 1) start size depth key
      = ((List.range (CleanKWay.numChunks k size)).findSome? (fun c =>
          if key = ⟨depth, start + k * c, CleanKWay.SwitchRole.input⟩ then
            some (rho key (min k (size - k * c)))
          else none)).orElse (fun _ =>
        ((List.range ((CleanKWay.calculateGroupSizes k size).foldr max 0)).findSome? (fun pos =>
          if 1 < (CleanKWay.calculateGroupSizes k size).countP (fun g => pos < g) ∧
              key = ⟨depth, start, CleanKWay.SwitchRole.output pos⟩ then
            some (rho key ((CleanKWay.calculateGroupSizes k size).countP (fun g => pos < g)))
          else none)).orElse (fun _ =>
        CleanKWay.unionTables (((CleanKWay.calculateGroupSizes k size).zip
            (CleanKWay.groupStarts start (CleanKWay.calculateGroupSizes k size))).map
          (fun gs => CleanKWay.generateSwitchesRecursive rho k fuel gs.2 gs.1 (depth + 1)))
          key)) := by
  rw [CleanKWay.generateSwitchesRecursive, if_neg h1, if_neg h2]

theorem genRec_cone :
    ∀ (fuel : Nat) (rho : CleanKWay.SwitchKey → Nat → List Nat) (k start size depth : Nat)
      (key : CleanKWay.SwitchKey) (p : List Nat), 0 < k →
      CleanKWay.generateSwitchesRecursive rho k fuel start size depth key = some p →
      depth ≤ key.depth ∧ start ≤ key.start ∧ key.start < start + size := by
  intro fuel
  induction fuel with
  | zero =>
    intro rho k start size depth key p hk h
    rw [genRec_zero_apply] at h
    exact Option.noConfusion h
  | succ fuel ih =>
    intro rho k start size depth key p hk h
    by_cases h1 : size ≤ 1
    · rw [genRec_succ_small_apply rho k fuel start size depth key h1] at h
      exact Option.noConfusion h
    · by_cases h2 : size ≤ k
      · rw [genRec_succ_base_apply rho k fuel start size depth key h1 h2] at h
        by_cases hkey : key = ⟨depth, start, CleanKWay.SwitchRole.base⟩
        · rw [hkey]
          exact ⟨le_refl _, le_refl _, by show start < start + size; omega⟩
        · rw [if_neg hkey] at h
          exact Option.noConfusion h
      · rw [genRec_succ_big_apply rho k fuel start size depth key h1 h2] at h
        cases hinp : (List.range (CleanKWay.numChunks k size)).findSome? (fun c =>
            if key = ⟨depth, start + k * c, CleanKWay.SwitchRole.input⟩ then
              some (rho key (min k (size - k * c)))
            else none) with
        | some q =>
          rcases List.exists_of_findSome?_eq_some hinp with ⟨c, hcmem, hcq⟩
          have hclt := List.mem_range.mp hcmem
          by_cases hkey : key = ⟨depth, start + k * c, CleanKWay.SwitchRole.input⟩
          · rw [hkey]
            refine ⟨le_refl _, by show start ≤ start + k * c; omega, ?_⟩
            have := mul_lt_of_lt_numChunks hk hclt
            show start + k * c < start + size
            omega
          · rw [if_neg hkey] at hcq
            exact Option.noConfusion hcq
        | none =>
          rw [hinp] at h
          rw [show (none : Option (List Nat)).orElse _ = _ from rfl] at h
          cases houtp : (List.range ((CleanKWay.calculateGroupSizes k size).foldr max 0)).findSome?
              (fun pos =>
                if 1 < (CleanKWay.calculateGroupSizes k size).countP (fun g => pos < g) ∧
                    key = ⟨depth, start, CleanKWay.SwitchRole.output pos⟩ then
                  some (rho key ((CleanKWay.calculateGroupSizes k size).countP
                    (fun g => pos < g)))
                else none) with
          | some q =>
            rcases List.exists_of_findSome?_eq_some houtp with ⟨pos, _, hpq⟩
            by_cases hkey : 1 < (CleanKWay.calculateGroupSizes k size).countP
                (fun g => pos < g) ∧ key = ⟨depth, start, CleanKWay.SwitchRole.output pos⟩
            · rw [hkey.2]
              exact ⟨le_refl _, le_refl _, by show start < start + size; omega⟩
            · rw [if_neg hkey] at hpq
              exact Option.noConfusion hpq
          | none =>
            rw [houtp] at h
            rw [show (none : Option (List Nat)).orElse _ = _ from rfl] at h
            rcases unionTables_some h with ⟨t, htmem, htp⟩
            rcases List.mem_map.mp htmem with ⟨gsp, hgsmem, hgst⟩
            rw [← hgst] at htp
            have hih := ih rho k gsp.2 gsp.1 (depth + 1) key p hk htp
            have hb := zip_groupStarts_bound (CleanKWay.calculateGroupSizes k size) start
              gsp.1 gsp.2 (by rw [Prod.mk.eta]; exact hgsmem)
            have hsum : (CleanKWay.calculateGroupSizes k size).sum = size :=
              calculateGroupSizes_sum size hk
            rw [hsum] at hb
            exact ⟨by omega, by omega, by omega⟩

theorem option_none_orElse {α : Type u} (f : Unit → Option α) :
    (none : Option α).orElse f = f () := rfl

theorem option_some_orElse {α : Type u} (a : α) (f : Unit → Option α) :
    (some a).orElse f = some a := rfl

/-- Any table that agrees, on the cone of keys reachable from a node, with the
table written by `_generate_switches_recursive` at that node is well-formed at
that node, provided the oracle only draws permutations. -/
theorem genRec_WFat :
    ∀ (fuel : Nat) (rho : CleanKWay.SwitchKey → Nat → List Nat) (k start size depth : Nat)
      (sw : CleanKWay.SwitchTable), 2 ≤ k →
      (∀ key m, (rho key m).Perm (List.range m)) →
      (∀ key : CleanKWay.SwitchKey, depth ≤ key.depth → start ≤ key.start →
        key.start < start + size →
        sw key = CleanKWay.generateSwitchesRecursive rho k fuel start size depth key) →
      CleanKWay.WFat sw k fuel start size depth := by
  intro fuel
  induction fuel with
  | zero =>
    intro rho k start size depth sw _ _ _
    exact WFat_zero sw k start size depth
  | succ fuel ih =>
    intro rho k start size depth sw hk hrho hagree
    have hk0 : 0 < k := by omega
    by_cases h1 : size ≤ 1
    · rw [CleanKWay.WFat, if_pos h1]
      trivial
    · by_cases h2 : size ≤ k
      · rw [CleanKWay.WFat, if_neg h1, if_pos h2]
        have hkey := hagree ⟨depth, start, CleanKWay.SwitchRole.base⟩ (le_refl _) (le_refl _)
          (by show start < start + size; omega)
        rw [genRec_succ_base_apply rho k fuel start size depth _ h1 h2, if_pos rfl] at hkey
        unfold CleanKWay.lookupPerm
        rw [hkey, Option.getD_some]
        exact hrho _ _
      · rw [CleanKWay.WFat, if_neg h1, if_neg h2]
        refine ⟨?_, ?_, ?_⟩
        · intro c hc
          have hkeyagree := hagree ⟨depth, start + k * c, CleanKWay.SwitchRole.input⟩
            (le_refl _) (by show start ≤ start + k * c; omega)
            (by show start + k * c < start + size
                have := mul_lt_of_lt_numChunks hk0 hc; omega)
          rw [genRec_succ_big_apply rho k fuel start size depth _ h1 h2] at hkeyagree
          have hfind : (List.range (CleanKWay.numChunks k size)).findSome? (fun c2 =>
              if (⟨depth, start + k * c, CleanKWay.SwitchRole.input⟩ : CleanKWay.SwitchKey)
                  = ⟨depth, start + k * c2, CleanKWay.SwitchRole.input⟩ then
                some (rho ⟨depth, start + k * c, CleanKWay.SwitchRole.input⟩
                  (min k (size - k * c2)))
              else none)
              = some (rho ⟨depth, start + k * c, CleanKWay.SwitchRole.input⟩
                  (min k (size - k * c))) := by
            rw [findSome?_range_unique _ hc (fun c2 _ hne => if_neg (fun heq => hne ?_))]
            · rw [if_pos rfl]
            · have h3 := congrArg CleanKWay.SwitchKey.start heq
              have h4 : k * c = k * c2 := by
                simp only [CleanKWay.SwitchKey.start] at h3
                omega
              exact (Nat.eq_of_mul_eq_mul_left hk0 h4).symm
          rw [hfind, option_some_orElse] at hkeyagree
          unfold CleanKWay.lookupPerm
          rw [hkeyagree, Option.getD_some]
          exact hrho _ _
        · intro pos hpos hact
          have hkeyagree := hagree ⟨depth, start, CleanKWay.SwitchRole.output pos⟩
            (le_refl _) (le_refl _) (by show start < start + size; omega)
          rw [genRec_succ_big_apply rho k fuel start size depth _ h1 h2] at hkeyagree
          have hfind1 : (List.range (CleanKWay.numChunks k size)).findSome? (fun c2 =>
              if (⟨depth, start, CleanKWay.SwitchRole.output pos⟩ : CleanKWay.SwitchKey)
                  = ⟨depth, start + k * c2, CleanKWay.SwitchRole.input⟩ then
                some (rho ⟨depth, start, CleanKWay.SwitchRole.output pos⟩
                  (min k (size - k * c2)))
              else none) = none :=
            List.findSome?_eq_none_iff.mpr (fun c2 _ => if_neg (fun heq =>
              CleanKWay.SwitchRole.noConfusion (congrArg CleanKWay.SwitchKey.role heq)))
          rw [hfind1, option_none_orElse] at hkeyagree
          have hfind2 : (List.range ((CleanKWay.calculateGroupSizes k size).foldr max 0)).findSome?
              (fun pos2 =>
                if 1 < (CleanKWay.calculateGroupSizes k size).countP (fun g => pos2 < g) ∧
                    (⟨depth, start, CleanKWay.SwitchRole.output pos⟩ : CleanKWay.SwitchKey)
                      = ⟨depth, start, CleanKWay.SwitchRole.output pos2⟩ then
                  some (rho ⟨depth, start, CleanKWay.SwitchRole.output pos⟩
                    ((CleanKWay.calculateGroupSizes k size).countP (fun g => pos2 < g)))
                else none)
              = some (rho ⟨depth, start, CleanKWay.SwitchRole.output pos⟩
                  ((CleanKWay.calculateGroupSizes k size).countP (fun g => pos < g))) := by
            rw [findSome?_range_unique _ hpos (fun pos2 _ hne => if_neg (fun hconj => hne ?_))]
            · rw [if_pos ⟨hact, rfl⟩]
            · have h3 := congrArg CleanKWay.SwitchKey.role hconj.2
              simp only [CleanKWay.SwitchKey.role] at h3
              exact (CleanKWay.SwitchRole.output.inj h3).symm
          rw [hfind2, option_some_orElse] at hkeyagree
          unfold CleanKWay.lookupPerm
          rw [hkeyagree, Option.getD_some]
          exact hrho _ _
        · intro gsp hgspmem
          refine ih rho k gsp.2 gsp.1 (depth + 1) sw hk hrho ?_
          intro key hd hs1 hs2
          have hb := zip_groupStarts_bound (CleanKWay.calculateGroupSizes k size) start
            gsp.1 gsp.2 (by rw [Prod.mk.eta]; exact hgspmem)
          have hsum : (CleanKWay.calculateGroupSizes k size).sum = size :=
            calculateGroupSizes_sum size hk0
          rw [hsum] at hb
          have hparent := hagree key (by omega) (by omega) (by omega)
          rw [genRec_succ_big_apply rho k fuel start size depth key h1 h2] at hparent
          have hf1 : (List.range (CleanKWay.numChunks k size)).findSome? (fun c2 =>
              if key = ⟨depth, start + k * c2, CleanKWay.SwitchRole.input⟩ then
                some (rho key (min k (size - k * c2)))
              else none) = none :=
            List.findSome?_eq_none_iff.mpr (fun c2 _ => if_neg (fun heq => by
              have h3 := congrArg CleanKWay.SwitchKey.depth heq
              simp only [CleanKWay.SwitchKey.depth] at h3
              omega))
          have hf2 : (List.range ((CleanKWay.calculateGroupSizes k size).foldr max 0)).findSome?
              (fun pos2 =>
                if 1 < (CleanKWay.calculateGroupSizes k size).countP (fun g => pos2 < g) ∧
                    key = ⟨depth, start, CleanKWay.SwitchRole.output pos2⟩ then
                  some (rho key ((CleanKWay.calculateGroupSizes k size).countP
                    (fun g => pos2 < g)))
                else none) = none :=
            List.findSome?_eq_none_iff.mpr (fun pos2 _ => if_neg (fun hconj => by
              have h3 := congrArg CleanKWay.SwitchKey.depth hconj.2
              simp only [CleanKWay.SwitchKey.depth] at h3
              omega))
          rw [hf1, option_none_orElse, hf2, option_none_orElse] at hparent
          have hpick := unionTables_pick (CleanKWay.calculateGroupSizes k size) start
            (fun gs2 => CleanKWay.generateSwitchesRecursive rho k fuel gs2.2 gs2.1 (depth + 1))
            key
            (fun gs2 hgs2 p hp => ⟨(genRec_cone fuel rho k gs2.2 gs2.1 (depth + 1) key p
                hk0 hp).2.1,
              (genRec_cone fuel rho k gs2.2 gs2.1 (depth + 1) key p hk0 hp).2.2⟩)
            gsp.1 gsp.2 (by rw [Prod.mk.eta]; exact hgspmem) (by omega) (by omega)
          exact hparent.trans hpick

/-- The table written by `set_random_switches` is well-formed, for every
radix `k ≥ 2` and every oracle whose draws are permutations. -/
theorem setRandomSwitches_WFat (rho : CleanKWay.SwitchKey → Nat → List Nat) (n k : Nat)
    (hk : 2 ≤ k) (hrho : ∀ key m, (rho key m).Perm (List.range m)) :
    CleanKWay.WFat (CleanKWay.setRandomSwitches rho n k) k n 0 n 0 :=
  genRec_WFat n rho k 0 n 0 _ hk hrho (fun _ _ _ _ => rfl)

/-- With a well-formed table, `get_permutation` is a permutation of `0..n-1`. -/
theorem getPermutation_perm {n k : Nat} {sw : CleanKWay.SwitchTable} (hk : 2 ≤ k)
    (hwf : CleanKWay.WFat sw k n 0 n 0) :
    (CleanKWay.getPermutation sw n k).Perm (List.range n) := by
  unfold CleanKWay.getPermutation
  have hlen : (List.range n).length = n := List.length_range n
  exact (@permuteRecursive_perm_and_map Nat Nat _ _ n sw k 0 0 (List.range n) hk
    (by rw [hlen]) (by rw [hlen]; exact hwf)).1

/-- With a well-formed table, `check_validity` returns `True`. -/
theorem checkValidity_of_WFat {n k : Nat} {sw : CleanKWay.SwitchTable} (hk : 2 ≤ k)
    (hwf : CleanKWay.WFat sw k n 0 n 0) :
    CleanKWay.checkValidity sw n k = true := by
  unfold CleanKWay.checkValidity
  have hperm := getPermutation_perm hk hwf
  have htrans : ∀ a b c : Nat, (fun a b => decide (a ≤ b)) a b = true →
      (fun a b => decide (a ≤ b)) b c = true → (fun a b => decide (a ≤ b)) a c = true := by
    intro a b c hab hbc
    simp only [decide_eq_true_eq] at hab hbc ⊢
    omega
  have htotal : ∀ a b : Nat,
      ((fun a b => decide (a ≤ b)) a b || (fun a b => decide (a ≤ b)) b a) = true := by
    intro a b
    simp only [decide_eq_true_eq, Bool.or_eq_true]
    omega
  have hms : List.mergeSort (CleanKWay.getPermutation sw n k) (fun a b => decide (a ≤ b))
      = List.range n := by
    refine List.eq_of_perm_of_sorted ((List.mergeSort_perm _ _).trans hperm) ?_
      (List.sorted_le_range n)
    have hpw := @List.sorted_mergeSort Nat (fun a b => decide (a ≤ b)) htrans htotal
      (CleanKWay.getPermutation sw n k)
    exact hpw.imp (fun hab => by simpa using hab)
  rw [hms]
  simp

/-! ## The all-empty table: every lookup falls back to the identity,
and the whole network degenerates to the identity function. -/

theorem getD_range_self {n i : Nat} (hi : i < n) : (List.range n).getD i 0 = i := by
  have h1 : i < (List.range n).length := by simpa using hi
  rw [List.getD_eq_getElem _ _ h1, List.getElem_range]

theorem identity_shuffle {α : Type u} (l : List α) (d : α) :
    (List.range l.length).map (fun i => l.getD ((List.range l.length).getD i 0) d) = l := by
  have h1 : (List.range l.length).map (fun i => l.getD ((List.range l.length).getD i 0) d)
      = (List.range l.length).map (fun i => l.getD i d) :=
    List.map_congr_left (fun i hi => by rw [getD_range_self (List.mem_range.mp hi)])
  rw [h1, map_getD_range_self]

theorem filterMap_enum_snd {α : Type u} {β : Type v} (l : List α) (h : α → Option β) :
    l.enum.filterMap (fun ic => h ic.2) = l.filterMap h := by
  conv_rhs => rw [← List.enum_map_snd l]
  rw [List.filterMap_map]
  rfl

theorem foldr_max_le {l : List Nat} {x : Nat} (h : ∀ y ∈ l, y ≤ x) :
    l.foldr max 0 ≤ x := by
  induction l with
  | nil => exact Nat.zero_le x
  | cons a t ih =>
    rw [List.foldr_cons]
    exact max_le (h a (List.mem_cons_self a t))
      (ih (fun y hy => h y (List.mem_cons_of_mem a hy)))

theorem toChunks_ne_nil {α : Type u} {k : Nat} {l : List α} (hk : 0 < k)
    {c : List α} (hc : c ∈ CleanKWay.toChunks k l) : c ≠ [] := by
  unfold CleanKWay.toChunks at hc
  rcases List.mem_map.mp hc with ⟨i, hi, hic⟩
  have hilt := List.mem_range.mp hi
  have hmul := mul_lt_of_lt_numChunks hk hilt
  intro hnil
  rw [hnil] at hic
  have : ((l.drop (k * i)).take k).length = 0 := by rw [hic]; rfl
  rw [List.length_take, List.length_drop] at this
  omega

theorem toChunks_pairwise_ge {α : Type u} (k : Nat) (l : List α) :
    ((CleanKWay.toChunks k l).map List.length).Pairwise (fun a b => b ≤ a) := by
  unfold CleanKWay.toChunks
  rw [List.map_map]
  refine (List.pairwise_map.mpr ?_)
  refine (List.pairwise_lt_range _).imp ?_
  intro c c2 hlt
  show ((l.drop (k * c2)).take k).length ≤ ((l.drop (k * c)).take k).length
  rw [List.length_take, List.length_drop, List.length_take, List.length_drop]
  have hmul : k * c ≤ k * c2 := Nat.mul_le_mul_left k (by omega)
  omega

theorem filterMap_if_pairwise {α : Type u} {β : Type v} :
    ∀ (cs : List (List α)), cs.Pairwise (fun a b => b.length ≤ a.length) →
    ∀ (j : Nat) (e : List α → β),
      cs.filterMap (fun c => if j < c.length then some (e c) else none)
        = (List.range (cs.countP (fun c => decide (j < c.length)))).map
            (fun p => e (cs.getD p [])) := by
  intro cs
  induction cs with
  | nil => intro _ j e; rfl
  | cons c rest ih =>
    intro hpw j e
    rcases List.pairwise_cons.mp hpw with ⟨hhead, htail⟩
    rw [List.filterMap_cons, List.countP_cons]
    by_cases hj : j < c.length
    · rw [if_pos hj]
      have hdec : (decide (j < c.length) = true) := decide_eq_true_eq.mpr hj
      rw [hdec]
      rw [if_pos rfl]
      rw [List.range_succ_eq_map, List.map_cons, List.map_map]
      refine congrArg₂ List.cons ?_ ?_
      · rw [List.getD_cons_zero]
      · rw [ih htail j e]
        refine (List.map_congr_left (fun p _ => ?_)).symm
        show e ((c :: rest).getD (p + 1) []) = e (rest.getD p [])
        rw [List.getD_cons_succ]
    · rw [if_neg hj]
      have hdec : (decide (j < c.length) = false) := by simpa using hj
      rw [hdec, if_neg (by simp)]
      have hcnt : rest.countP (fun c2 => decide (j < c2.length)) = 0 := by
        refine List.countP_eq_zero.mpr (fun c2 hc2 => ?_)
        have := hhead c2 hc2
        simpa using (by omega : ¬ j < c2.length)
      have hfm : rest.filterMap (fun c2 => if j < c2.length then some (e c2) else none)
          = [] := by
        refine List.filterMap_eq_nil_iff.mpr (fun c2 hc2 => ?_)
        have := hhead c2 hc2
        rw [if_neg (by omega)]
      rw [hcnt, hfm]
      rfl

theorem countP_pos_iff_pairwise {α : Type u} :
    ∀ (cs : List (List α)), cs.Pairwise (fun a b => b.length ≤ a.length) →
    ∀ (j p : Nat),
      (p < cs.countP (fun c => decide (j < c.length)) ↔
        p < cs.length ∧ j < (cs.getD p []).length) := by
  intro cs
  induction cs with
  | nil => intro _ j p; simp
  | cons c rest ih =>
    intro hpw j p
    rcases List.pairwise_cons.mp hpw with ⟨hhead, htail⟩
    rw [List.countP_cons]
    by_cases hj : j < c.length
    · rw [decide_eq_true_eq.mpr hj, if_pos rfl]
      cases p with
      | zero =>
        simp only [List.length_cons, List.getD_cons_zero]
        constructor
        · intro _; exact ⟨by omega, hj⟩
        · intro _; omega
      | succ q =>
        rw [List.getD_cons_succ]
        have := ih htail j q
        simp only [List.length_cons]
        omega
    · have hcnt : rest.countP (fun c2 => decide (j < c2.length)) = 0 := by
        refine List.countP_eq_zero.mpr (fun c2 hc2 => ?_)
        have := hhead c2 hc2
        simpa using (by omega : ¬ j < c2.length)
      rw [hcnt]
      have hdec : (decide (j < c.length) = false) := by simpa using hj
      rw [hdec, if_neg (by simp)]
      constructor
      · intro h; omega
      · intro ⟨hp1, hp2⟩
        exfalso
        cases p with
        | zero => rw [List.getD_cons_zero] at hp2; omega
        | succ q =>
          rw [List.getD_cons_succ] at hp2
          have hq : q < rest.length := by
            rw [List.length_cons] at hp1; omega
          have hmem : rest.getD q [] ∈ rest := by
            rw [List.getD_eq_getElem _ _ hq]
            exact List.getElem_mem hq
          have := hhead _ hmem
          omega

theorem applyInputSwitches_none {α : Type u} [Inhabited α] (k start depth : Nat)
    (sub : List α) :
    CleanKWay.applyInputSwitches (fun _ => none) k start depth sub
      = (List.range k).map (fun j => (CleanKWay.toChunks k sub).filterMap
          (fun c => if j < c.length then some (c.getD j default) else none)) := by
  unfold CleanKWay.applyInputSwitches
  refine List.map_congr_left (fun j hj => ?_)
  show ((CleanKWay.toChunks k sub).enum).filterMap (fun ic =>
      if j < ic.2.length then
        some (ic.2.getD ((CleanKWay.lookupPerm (fun _ => none)
          ⟨depth, start + k * ic.1, CleanKWay.SwitchRole.input⟩ ic.2.length).getD j 0) default)
      else none)
    = (CleanKWay.toChunks k sub).filterMap
        (fun c => if j < c.length then some (c.getD j default) else none)
  have h1 : ((CleanKWay.toChunks k sub).enum).filterMap (fun ic =>
      if j < ic.2.length then
        some (ic.2.getD ((CleanKWay.lookupPerm (fun _ => none)
          ⟨depth, start + k * ic.1, CleanKWay.SwitchRole.input⟩ ic.2.length).getD j 0) default)
      else none)
      = ((CleanKWay.toChunks k sub).enum).filterMap (fun ic =>
        if j < ic.2.length then some (ic.2.getD j default) else none) := by
    refine List.filterMap_congr (fun ic _ => ?_)
    by_cases hcase : j < ic.2.length
    · rw [if_pos hcase, if_pos hcase]
      have h2 : CleanKWay.lookupPerm (fun _ => none)
          ⟨depth, start + k * ic.1, CleanKWay.SwitchRole.input⟩ ic.2.length
          = List.range ic.2.length := rfl
      rw [h2, getD_range_self hcase]
    · rw [if_neg hcase, if_neg hcase]
  rw [h1]
  exact filterMap_enum_snd (CleanKWay.toChunks k sub)
    (fun c => if j < c.length then some (c.getD j default) else none)

theorem applyOutputSwitches_none_chunks {α : Type u} [Inhabited α] (k start depth : Nat)
    (gs : List (List α)) :
    CleanKWay.applyOutputSwitches (fun _ => none) k start depth gs
      = ((List.range ((gs.map List.length).foldr max 0)).map
          (fun pos => gs.filterMap (fun g => g[pos]?))).flatten := by
  unfold CleanKWay.applyOutputSwitches
  refine congrArg List.flatten (List.map_congr_left (fun pos hpos => ?_))
  show (if (gs.filterMap (fun g => g[pos]?)).length = 1 then gs.filterMap (fun g => g[pos]?)
    else (List.range (gs.filterMap (fun g => g[pos]?)).length).map (fun i =>
      (gs.filterMap (fun g => g[pos]?)).getD ((CleanKWay.lookupPerm (fun _ => none)
        ⟨depth, start, CleanKWay.SwitchRole.output pos⟩
        (gs.filterMap (fun g => g[pos]?)).length).getD i 0) default))
    = gs.filterMap (fun g => g[pos]?)
  by_cases h1 : (gs.filterMap (fun g => g[pos]?)).length = 1
  · rw [if_pos h1]
  · rw [if_neg h1]
    have h2 : CleanKWay.lookupPerm (fun _ => none)
        ⟨depth, start, CleanKWay.SwitchRole.output pos⟩
        (gs.filterMap (fun g => g[pos]?)).length
        = List.range (gs.filterMap (fun g => g[pos]?)).length := rfl
    rw [h2]
    exact identity_shuffle _ default

/-- With the all-empty switch table, the recursive applier is the identity:
every missing switch silently falls back to the identity permutation. -/
theorem permuteRecursive_none_id {α : Type u} [Inhabited α] :
    ∀ (fuel k start depth : Nat) (region : List α), 2 ≤ k → region.length ≤ fuel →
      CleanKWay.permuteRecursive (fun _ => none) k fuel start depth region = region := by
  intro fuel
  induction fuel with
  | zero =>
    intro k start depth region hk hfuel
    have h0 : region = [] := List.length_eq_zero.mp (by omega)
    rw [h0]
    rfl
  | succ fuel ih =>
    intro k start depth region hk hfuel
    have hk0 : 0 < k := by omega
    by_cases h1 : region.length ≤ 1
    · exact permuteRecursive_succ_small _ _ _ _ _ _ h1
    · by_cases h2 : region.length ≤ k
      · rw [permuteRecursive_succ_base _ _ _ _ _ _ h1 h2]
        have h3 : CleanKWay.lookupPerm (fun _ => none)
            ⟨depth, start, CleanKWay.SwitchRole.base⟩ region.length
            = List.range region.length := rfl
        rw [h3]
        exact identity_shuffle region default
      · rw [permuteRecursive_succ_big _ _ _ _ _ _ h1 h2]
        have F1 : (CleanKWay.applyInputSwitches (fun _ => none) k start depth region).map
            List.length = CleanKWay.calculateGroupSizes k region.length :=
          applyInputSwitches_lengths _ k start depth region hk0
        set gs := CleanKWay.applyInputSwitches (fun _ => none) k start depth region with hgsdef
        set starts := CleanKWay.groupStarts start (gs.map List.length) with hstartsdef
        have hlenstarts : gs.length ≤ starts.length := by
          rw [hstartsdef]
          unfold CleanKWay.groupStarts
          rw [List.length_scanl, List.length_map]
          omega
        have hgs2 : (gs.zip starts).map (fun gst =>
            CleanKWay.permuteRecursive (fun _ => none) k fuel gst.2 (depth + 1) gst.1)
            = gs := by
          have e1 : ∀ gst ∈ gs.zip starts,
              CleanKWay.permuteRecursive (fun _ => none) k fuel gst.2 (depth + 1) gst.1
                = gst.1 := by
            intro gst hgst
            have hgmem : gst.1 ∈ gs := (List.of_mem_zip (a := gst.1) (b := gst.2)
              (by rw [Prod.mk.eta]; exact hgst)).1
            have hglen : gst.1.length ∈ CleanKWay.calculateGroupSizes k region.length := by
              rw [← F1]
              exact List.mem_map.mpr ⟨gst.1, hgmem, rfl⟩
            have hlt := calculateGroupSizes_lt hk (by omega) _ hglen
            exact ih k gst.2 (depth + 1) gst.1 hk (by omega)
          calc (gs.zip starts).map (fun gst =>
              CleanKWay.permuteRecursive (fun _ => none) k fuel gst.2 (depth + 1) gst.1)
              = (gs.zip starts).map (fun gst => gst.1) := List.map_congr_left e1
            _ = gs := List.map_fst_zip gs starts hlenstarts
        rw [hgs2, applyOutputSwitches_none_chunks]
        set cs := CleanKWay.toChunks k region with hcsdef
        have hgseq : gs = (List.range k).map (fun j => cs.filterMap
            (fun c => if j < c.length then some (c.getD j default) else none)) := by
          rw [hgsdef, hcsdef]
          exact applyInputSwitches_none k start depth region
        have hpw : cs.Pairwise (fun a b => b.length ≤ a.length) := by
          have h4 := toChunks_pairwise_ge k region
          rw [← hcsdef] at h4
          exact List.pairwise_map.mp h4
        have hchunk : ∀ pos, pos < cs.length →
            gs.filterMap (fun g => g[pos]?) = cs.getD pos [] := by
          intro pos hpos
          rw [hgseq, List.filterMap_map]
          show (List.range k).filterMap (fun j => (cs.filterMap
              (fun c => if j < c.length then some (c.getD j default) else none))[pos]?)
            = cs.getD pos []
          have e2 : ∀ j ∈ List.range k,
              ((cs.filterMap (fun c =>
                if j < c.length then some (c.getD j default) else none))[pos]?)
                = (if j < (cs.getD pos []).length then
                    some ((cs.getD pos []).getD j default) else none) := by
            intro j _
            rw [filterMap_if_pairwise cs hpw j (fun c => c.getD j default)]
            by_cases hcase : pos < cs.countP (fun c => decide (j < c.length))
            · have hc2 : j < (cs.getD pos []).length :=
                ((countP_pos_iff_pairwise cs hpw j pos).mp hcase).2
              rw [if_pos hc2]
              have hlen3 : pos < ((List.range (cs.countP
                  (fun c => decide (j < c.length)))).map
                  (fun p => (cs.getD p []).getD j default)).length := by
                simpa using hcase
              rw [List.getElem?_eq_getElem hlen3]
              congr 1
              rw [List.getElem_map, List.getElem_range]
            · have hc2 : ¬ j < (cs.getD pos []).length := by
                intro hcon
                exact hcase ((countP_pos_iff_pairwise cs hpw j pos).mpr ⟨hpos, hcon⟩)
              rw [if_neg hc2]
              refine List.getElem?_eq_none ?_
              rw [List.length_map, List.length_range]
              omega
          rw [List.filterMap_congr e2]
          have hmem4 : cs.getD pos [] ∈ CleanKWay.toChunks k region := by
            have hpos2 : pos < (CleanKWay.toChunks k region).length := by
              rw [← hcsdef]
              exact hpos
            rw [hcsdef, List.getD_eq_getElem _ _ hpos2]
            exact List.getElem_mem hpos2
          have hle : (cs.getD pos []).length ≤ k := toChunks_length_le hmem4
          rw [filterMap_range_if k (cs.getD pos []).length hle
            (fun j => (cs.getD pos []).getD j default), map_getD_range_self]
        have hM : (gs.map List.length).foldr max 0 = cs.length := by
          rw [hgseq, List.map_map]
          have e3 : ((List.range k).map (List.length ∘ fun j => cs.filterMap
              (fun c => if j < c.length then some (c.getD j default) else none)))
              = (List.range k).map (fun j => cs.countP (fun c => decide (j < c.length))) := by
            refine List.map_congr_left (fun j _ => ?_)
            show (cs.filterMap (fun c =>
              if j < c.length then some (c.getD j default) else none)).length = _
            rw [filterMap_if_pairwise cs hpw j (fun c => c.getD j default)]
            rw [List.length_map, List.length_range]
          rw [e3]
          have h0cnt : cs.countP (fun c => decide (0 < c.length)) = cs.length := by
            refine List.countP_eq_length.mpr (fun c hc => ?_)
            have hnn : c ≠ [] := toChunks_ne_nil hk0 (by rw [← hcsdef]; exact hc)
            have := List.length_pos.mpr hnn
            simpa using this
          refine le_antisymm (foldr_max_le ?_) ?_
          · intro y hy
            rcases List.mem_map.mp hy with ⟨j, _, hjy⟩
            rw [← hjy]
            exact List.countP_le_length _
          · rw [← h0cnt]
            exact le_foldr_max (List.mem_map.mpr ⟨0, List.mem_range.mpr (by omega), rfl⟩)
        rw [hM]
        have e4 : (List.range cs.length).map (fun pos => gs.filterMap (fun g => g[pos]?))
            = (List.range cs.length).map (fun pos => cs.getD pos []) :=
          List.map_congr_left (fun pos hpos => hchunk pos (List.mem_range.mp hpos))
        rw [e4, map_getD_range_self, hcsdef]
        exact toChunks_flatten hk0 region

/-! ## Waksman shuffles: swaps, switch rows and the fixed variant -/

theorem swapElements_length {α : Type u} [Inhabited α] (a : List α) (i j : Nat) (b : Bool) :
    (StrideWaksman.swapElements a i j b).length = a.length := by
  unfold StrideWaksman.swapElements
  by_cases hb : b
  · rw [if_pos hb, List.length_set, List.length_set]
  · rw [if_neg hb]

theorem swapElements_perm {α : Type u} [Inhabited α] (a : List α) (i j : Nat) (b : Bool)
    (hi : i < a.length) (hj : j < a.length) :
    (StrideWaksman.swapElements a i j b).Perm a := by
  classical
  unfold StrideWaksman.swapElements
  by_cases hb : b
  · rw [if_pos hb, List.getD_eq_getElem a default hj, List.getD_eq_getElem a default hi]
    have hjL : j < (a.set i a[j]).length := by
      rw [List.length_set]
      exact hj
    refine List.perm_iff_count.mpr (fun x => ?_)
    rw [List.count_set a[i] x (a.set i a[j]) j hjL, List.count_set a[j] x a i hi]
    rw [List.getElem_set hjL, ite_self]
    have hAc : (a[i] == x) = true → 1 ≤ List.count x a := by
      intro h
      have hm : a[i] ∈ a := List.getElem_mem hi
      rw [← eq_of_beq h]
      exact List.count_pos_iff.mpr hm
    have hBc : (a[j] == x) = true → 1 ≤ List.count x a := by
      intro h
      have hm : a[j] ∈ a := List.getElem_mem hj
      rw [← eq_of_beq h]
      exact List.count_pos_iff.mpr hm
    by_cases h1 : (a[i] == x) = true
    · by_cases h2 : (a[j] == x) = true
      · have hc := hAc h1
        simp only [if_pos h1, if_pos h2]
        omega
      · have hc := hAc h1
        simp only [if_pos h1, if_neg h2]
        omega
    · by_cases h2 : (a[j] == x) = true
      · have hc := hBc h2
        simp only [if_neg h1, if_pos h2]
        omega
      · simp only [if_neg h1, if_neg h2]
        omega
  · rw [if_neg hb]

/-- A row of conditional pairwise swaps never fails when every accessed
upper index is in bounds, and the result is a permutation of the input. -/
theorem switchRow_perm {α : Type u} [Inhabited α] (bits : Nat → Nat → Bool)
    (level start stride : Nat) (idxs : List Nat) :
    ∀ (arr : List α),
      (∀ i ∈ idxs, start + (i * 2 + 1) * stride < arr.length) →
      ∃ out, StrideWaksman.switchRow bits level start stride idxs arr = some out ∧
        out.Perm arr := by
  induction idxs with
  | nil =>
    intro arr _
    exact ⟨arr, rfl, List.Perm.refl arr⟩
  | cons i rest ih =>
    intro arr hb
    have hbi : start + (i * 2 + 1) * stride < arr.length := hb i (List.mem_cons_self i rest)
    have hle : start + i * 2 * stride ≤ start + (i * 2 + 1) * stride := by
      have h2 := Nat.mul_le_mul_right stride (show i * 2 ≤ i * 2 + 1 by omega)
      omega
    have hlen1 : (StrideWaksman.swapElements arr (start + i * 2 * stride)
        (start + (i * 2 + 1) * stride) (bits level (start + i * 2 * stride))).length
        = arr.length := swapElements_length arr _ _ _
    obtain ⟨out, hout, hperm⟩ := ih (StrideWaksman.swapElements arr (start + i * 2 * stride)
        (start + (i * 2 + 1) * stride) (bits level (start + i * 2 * stride)))
      (fun i2 hi2 => by rw [hlen1]; exact hb i2 (List.mem_cons_of_mem i hi2))
    refine ⟨out, ?_, hperm.trans (swapElements_perm arr _ _ _ (by omega) hbi)⟩
    have hstep : StrideWaksman.switchRow bits level start stride (i :: rest) arr
        = StrideWaksman.switchRow bits level start stride rest
          (StrideWaksman.swapElements arr (start + i * 2 * stride)
            (start + (i * 2 + 1) * stride) (bits level (start + i * 2 * stride))) := by
      unfold StrideWaksman.switchRow
      simp only [List.foldlM_cons]
      rw [if_neg (show ¬ arr.length ≤ start + (i * 2 + 1) * stride by omega)]
      rfl
    rw [hstep]
    exact hout

theorem fixedRec_succ_small {α : Type u} [Inhabited α] (bits : Nat → Nat → Bool)
    (fuel : Nat) (arr : List α) (start stride n level : Nat) (h1 : n ≤ 1) :
    FixedWaksman.waksmanRecursive bits (fuel + 1) arr start stride n level = some arr := by
  rw [FixedWaksman.waksmanRecursive, if_pos h1]

theorem fixedRec_succ_two {α : Type u} [Inhabited α] (bits : Nat → Nat → Bool)
    (fuel : Nat) (arr : List α) (start stride level : Nat) {n : Nat}
    (h1 : ¬ n ≤ 1) (h2 : n = 2) (h3 : ¬ arr.length ≤ start + stride) :
    FixedWaksman.waksmanRecursive bits (fuel + 1) arr start stride n level
      = some (StrideWaksman.swapElements arr start (start + stride) (bits level start)) := by
  rw [FixedWaksman.waksmanRecursive, if_neg h1, if_pos h2, if_neg h3]

theorem fixedRec_succ_big {α : Type u} [Inhabited α] (bits : Nat → Nat → Bool)
    (fuel : Nat) (arr : List α) (start stride level : Nat) {n : Nat}
    (h1 : ¬ n ≤ 1) (h2 : ¬ n = 2) :
    FixedWaksman.waksmanRecursive bits (fuel + 1) arr start stride n level
      = (StrideWaksman.switchRow bits level start stride (List.range (n / 2)) arr).bind
          (fun a1 =>
        (FixedWaksman.waksmanRecursive bits fuel a1 start (stride * 2)
            (if n % 2 = 0 then n / 2 else n / 2 + 1) (level + 1)).bind (fun a2 =>
        (FixedWaksman.waksmanRecursive bits fuel a2 (start + stride) (stride * 2) (n / 2)
            (level + 1)).bind (fun a3 =>
        StrideWaksman.switchRow bits (level + 10000) start stride
          (List.range' 1 (n / 2 - 1)) a3))) := by
  rw [FixedWaksman.waksmanRecursive, if_neg h1, if_neg h2]

theorem bind_some_eq {α : Type u} {β : Type v} (a : α) (f : α → Option β) :
    (Option.some a).bind f = f a := rfl

/-- The fixed Waksman recursion is total and permutation-preserving whenever
the strided region it works on lies inside the array and the fuel covers the
region size. -/
theorem fixedWaksman_total {α : Type u} [Inhabited α] (bits : Nat → Nat → Bool) :
    ∀ (fuel n start stride level : Nat) (arr : List α),
      n ≤ fuel → 1 ≤ stride → (n = 0 ∨ start + (n - 1) * stride < arr.length) →
      ∃ out, FixedWaksman.waksmanRecursive bits fuel arr start stride n level = some out ∧
        out.Perm arr := by
  intro fuel
  induction fuel with
  | zero =>
    intro n start stride level arr _ _ _
    exact ⟨arr, rfl, List.Perm.refl arr⟩
  | succ fuel ih =>
    intro n start stride level arr hn hstride hbound
    by_cases h1 : n ≤ 1
    · exact ⟨arr, fixedRec_succ_small bits fuel arr start stride n level h1,
        List.Perm.refl arr⟩
    · rcases hbound with hb0 | hb
      · omega
      by_cases h2 : n = 2
      · have hb2 : start + stride < arr.length := by
          rw [h2] at hb
          omega
        refine ⟨_, fixedRec_succ_two bits fuel arr start stride level h1 h2 (by omega), ?_⟩
        exact swapElements_perm arr start (start + stride) (bits level start) (by omega) hb2
      · have h3 : 3 ≤ n := by omega
        have hin : ∀ i ∈ List.range (n / 2), start + (i * 2 + 1) * stride < arr.length := by
          intro i hi
          have hi2 : i < n / 2 := List.mem_range.mp hi
          have hle : (i * 2 + 1) * stride ≤ (n - 1) * stride :=
            Nat.mul_le_mul_right stride (by omega)
          calc start + (i * 2 + 1) * stride ≤ start + (n - 1) * stride :=
                Nat.add_le_add_left hle start
            _ < arr.length := hb
        obtain ⟨a1, ha1, hp1⟩ := switchRow_perm bits level start stride
          (List.range (n / 2)) arr hin
        have hl1 : a1.length = arr.length := hp1.length_eq
        set ntop := if n % 2 = 0 then n / 2 else n / 2 + 1 with hntop
        have hts : ntop ≤ (n + 1) / 2 ∧ 1 ≤ ntop ∧ (ntop - 1) * 2 ≤ n - 1 := by
          rw [hntop]
          by_cases he : n % 2 = 0
          · rw [if_pos he]
            omega
          · rw [if_neg he]
            omega
        obtain ⟨ht1, ht2, ht3⟩ := hts
        have htopb : ntop = 0 ∨ start + (ntop - 1) * (stride * 2) < a1.length := by
          right
          have e1 : (ntop - 1) * (stride * 2) = ((ntop - 1) * 2) * stride := by ring
          have e2 : ((ntop - 1) * 2) * stride ≤ (n - 1) * stride :=
            Nat.mul_le_mul_right stride ht3
          calc start + (ntop - 1) * (stride * 2)
              = start + ((ntop - 1) * 2) * stride := by rw [e1]
            _ ≤ start + (n - 1) * stride := Nat.add_le_add_left e2 start
            _ < arr.length := hb
            _ = a1.length := hl1.symm
        obtain ⟨a2, ha2, hp2⟩ := ih ntop start (stride * 2) (level + 1) a1
          (by omega) (by omega) htopb
        have hl2 : a2.length = arr.length := by rw [hp2.length_eq, hl1]
        have hbotb : n / 2 = 0 ∨ (start + stride) + (n / 2 - 1) * (stride * 2) < a2.length := by
          right
          have e1 : (n / 2 - 1) * (stride * 2) = ((n / 2 - 1) * 2) * stride := by ring
          have e2 : ((n / 2 - 1) * 2) * stride ≤ (n - 2) * stride :=
            Nat.mul_le_mul_right stride (by omega)
          have e3 : stride + (n - 2) * stride = (n - 1) * stride := by
            have h4 : n - 1 = n - 2 + 1 := by omega
            rw [h4, Nat.add_mul, Nat.one_mul, Nat.add_comm]
          calc start + stride + (n / 2 - 1) * (stride * 2)
              = start + (stride + ((n / 2 - 1) * 2) * stride) := by rw [e1]; ring
            _ ≤ start + (stride + (n - 2) * stride) :=
              Nat.add_le_add_left (Nat.add_le_add_left e2 stride) start
            _ = start + (n - 1) * stride := by rw [e3]
            _ < arr.length := hb
            _ = a2.length := hl2.symm
        obtain ⟨a3, ha3, hp3⟩ := ih (n / 2) (start + stride) (stride * 2) (level + 1) a2
          (by omega) (by omega) hbotb
        have hl3 : a3.length = arr.length := by rw [hp3.length_eq, hl2]
        have hob : ∀ i ∈ List.range' 1 (n / 2 - 1),
            start + (i * 2 + 1) * stride < a3.length := by
          intro i hi
          have hi2 := List.mem_range'_1.mp hi
          have hle : (i * 2 + 1) * stride ≤ (n - 1) * stride :=
            Nat.mul_le_mul_right stride (by omega)
          calc start + (i * 2 + 1) * stride ≤ start + (n - 1) * stride :=
                Nat.add_le_add_left hle start
            _ < arr.length := hb
            _ = a3.length := hl3.symm
        obtain ⟨a4, ha4, hp4⟩ := switchRow_perm bits (level + 10000) start stride
          (List.range' 1 (n / 2 - 1)) a3 hob
        refine ⟨a4, ?_, hp4.trans (hp3.trans (hp2.trans hp1))⟩
        rw [fixedRec_succ_big bits fuel arr start stride level h1 h2, ← hntop, ha1]
        simp only [Option.some_bind]
        rw [ha2]
        simp only [Option.some_bind]
        rw [ha3]
        simp only [Option.some_bind]
        exact ha4

/-! ## The scatter semantics of `KWayNetwork.apply_permutation` -/

theorem foldl_set_length (f v : Nat → Nat) :
    ∀ (l : List Nat) (acc : List Nat),
      (l.foldl (fun res j => res.set (f j) (v j)) acc).length = acc.length := by
  intro l
  induction l with
  | nil => intro acc; rfl
  | cons j t ih =>
    intro acc
    rw [List.foldl_cons, ih, List.length_set]

theorem foldl_set_untouched (f v : Nat → Nat) (p : Nat) :
    ∀ (l : List Nat) (acc : List Nat), (∀ j ∈ l, f j ≠ p) →
      (l.foldl (fun res j => res.set (f j) (v j)) acc).getD p 0 = acc.getD p 0 := by
  intro l
  induction l with
  | nil => intro acc _; rfl
  | cons j t ih =>
    intro acc hne
    rw [List.foldl_cons,
      ih (acc.set (f j) (v j)) (fun j2 hj2 => hne j2 (List.mem_cons_of_mem j hj2))]
    rw [List.getD_eq_getElem?_getD, List.getD_eq_getElem?_getD,
      List.getElem?_set_ne (hne j (List.mem_cons_self j t))]

/-- The scatter loop `for i: result[f i] = v i` ends with `v i` at slot `f i`
when `f` stays in bounds and never collides along the loop. -/
theorem foldl_set_scatter (f v : Nat → Nat) :
    ∀ (l : List Nat) (acc : List Nat), (∀ j ∈ l, f j < acc.length) →
      l.Pairwise (fun a b => f a ≠ f b) →
      ∀ i ∈ l, (l.foldl (fun res j => res.set (f j) (v j)) acc).getD (f i) 0 = v i := by
  intro l
  induction l with
  | nil =>
    intro acc _ _ i hi
    exact absurd hi (List.not_mem_nil i)
  | cons j t ih =>
    intro acc hbound hpw i hi
    rw [List.foldl_cons]
    rcases List.mem_cons.mp hi with hij | hit
    · rw [hij]
      have hpwh := (List.pairwise_cons.mp hpw).1
      rw [foldl_set_untouched f v (f j) t (acc.set (f j) (v j))
        (fun j2 hj2 hcon => (hpwh j2 hj2) hcon.symm)]
      rw [List.getD_eq_getElem?_getD,
        List.getElem?_set_self (hbound j (List.mem_cons_self j t))]
      rfl
    · exact ih (acc.set (f j) (v j))
        (fun j2 hj2 => by rw [List.length_set]; exact hbound j2 (List.mem_cons_of_mem j hj2))
        (List.pairwise_cons.mp hpw).2 i hit

/-! ## The claims -/

/-- C1: bijectivity of the clean k-way network.  For every `n ≥ 0`, every
radix `k ≥ 2` and every random draw of switch settings (any oracle whose
answers are permutations, i.e. every seed), building the network with
`set_random_switches` and then computing `get_permutation` yields a valid
permutation of `0..n-1`: `check_validity` returns true. -/
theorem claim_C1_bijectivity (n k : Nat) (rho : CleanKWay.SwitchKey → Nat → List Nat)
    (hk : 2 ≤ k) (hrho : ∀ key m, (rho key m).Perm (List.range m)) :
    CleanKWay.checkValidity (CleanKWay.setRandomSwitches rho n k) n k = true :=
  checkValidity_of_WFat hk (setRandomSwitches_WFat rho n k hk hrho)

theorem claim_C1_bijectivity_witness :
    (2 ≤ 2 ∧ ∀ (key : CleanKWay.SwitchKey) (m : Nat),
        (List.range m).Perm (List.range m)) ∧
      CleanKWay.checkValidity
        (CleanKWay.setRandomSwitches (fun _ m => List.range m) 3 2) 3 2 = true :=
  ⟨⟨by decide, fun _ m => List.Perm.refl (List.range m)⟩,
    claim_C1_bijectivity 3 2 (fun _ m => List.range m) (by decide)
      (fun _ m => List.Perm.refl (List.range m))⟩

/-- C2 (counterexample to the stated contract): for the `KWayNetwork` of
`waksman_analysis.py` the router and the array applier do NOT realize the
same mapping.  `apply_permutation` executes `result[route(i)] = input[i]`, a
scatter, so `apply(table, identity(n))` is the inverse of `route`; on a
built table for `n = 4, k = 2` whose root group shuffle is a transposition,
`route(table, 0)` differs from `apply(table, identity(4))[0]`. -/
theorem claim_C2_router_applier_counterexample :
    ¬ (KWayRoute.route (KWayRoute.setRandomSwitchesW KWayRoute.swapTwoRho 4 2)
        KWayRoute.swapTwoRho 4 2 0
      = (KWayRoute.applyPermutationW (KWayRoute.setRandomSwitchesW KWayRoute.swapTwoRho 4 2)
          KWayRoute.swapTwoRho 4 2 (List.range 4)).getD 0 0) := by decide

/-- C2 (amended): router/applier agreement holds with the two sides composed
the other way round: `apply_permutation` writes `input[i]` into slot
`route(i)` (`result[route(i)] = input[i]`), so whenever `route` is in-range
and injective on `0..n-1`, applying the table to the identity array puts `i`
at position `route(table, i)` — the applier realizes the inverse of the
router, not the router itself. -/
theorem claim_C2_router_applier_amended (sw : KWayRoute.WTable)
    (rho : KWayRoute.WKey → Nat → List Nat) (n k : Nat) (hn : 2 ≤ n)
    (hrange : ∀ j, j < n → KWayRoute.route sw rho n k j < n)
    (hinj : ∀ j1, j1 < n → ∀ j2, j2 < n →
      KWayRoute.route sw rho n k j1 = KWayRoute.route sw rho n k j2 → j1 = j2)
    (i : Nat) (hi : i < n) :
    (KWayRoute.applyPermutationW sw rho n k (List.range n)).getD
      (KWayRoute.route sw rho n k i) 0 = i := by
  unfold KWayRoute.applyPermutationW
  rw [if_neg (show ¬ (List.range n).length ≤ 1 by rw [List.length_range]; omega)]
  rw [List.length_range]
  have hpw : (List.range n).Pairwise
      (fun a b => KWayRoute.route sw rho n k a ≠ KWayRoute.route sw rho n k b) := by
    refine List.Pairwise.imp_of_mem (fun ha hb hab hcon => ?_) (List.pairwise_lt_range n)
    have h5 := hinj _ (List.mem_range.mp ha) _ (List.mem_range.mp hb) hcon
    omega
  have h2 := foldl_set_scatter (fun j => KWayRoute.route sw rho n k j)
    (fun j => (List.range n).getD j 0) (List.range n) (List.replicate n 0)
    (fun j hj => by
      rw [List.length_replicate]
      exact hrange j (List.mem_range.mp hj))
    hpw i (List.mem_range.mpr hi)
  exact h2.trans (getD_range_self hi)

theorem claim_C2_router_applier_witness :
    (2 ≤ 4 ∧
      (∀ j, j < 4 → KWayRoute.route (KWayRoute.setRandomSwitchesW KWayRoute.idRho 4 2)
          KWayRoute.idRho 4 2 j < 4) ∧
      (∀ j1, j1 < 4 → ∀ j2, j2 < 4 →
        KWayRoute.route (KWayRoute.setRandomSwitchesW KWayRoute.idRho 4 2)
            KWayRoute.idRho 4 2 j1
          = KWayRoute.route (KWayRoute.setRandomSwitchesW KWayRoute.idRho 4 2)
              KWayRoute.idRho 4 2 j2 → j1 = j2) ∧
      1 < 4) ∧
    (KWayRoute.applyPermutationW (KWayRoute.setRandomSwitchesW KWayRoute.idRho 4 2)
        KWayRoute.idRho 4 2 (List.range 4)).getD
      (KWayRoute.route (KWayRoute.setRandomSwitchesW KWayRoute.idRho 4 2)
        KWayRoute.idRho 4 2 1) 0 = 1 :=
  ⟨⟨by decide, by decide, by decide, by decide⟩,
    claim_C2_router_applier_amended (KWayRoute.setRandomSwitchesW KWayRoute.idRho 4 2)
      KWayRoute.idRho 4 2 (by decide) (by decide) (by decide) 1 (by decide)⟩

/-- C3: after the input-switch distribution step on a region of size
`S > k`, group `j` holds exactly `partition(S, k)[j]` elements for every
`j < k`; and that partition size is `S div k` plus one exactly when
`j < S mod k` (full chunks feed every group, the tail chunk feeds the first
`S mod k` groups). -/
theorem claim_C3_distribute_counts {α : Type u} [Inhabited α] (sw : CleanKWay.SwitchTable)
    (k start depth : Nat) (region : List α) (hk : 2 ≤ k) (hS : k < region.length)
    (j : Nat) (hj : j < k) :
    ((CleanKWay.applyInputSwitches sw k start depth region).getD j []).length
        = (CleanKWay.calculateGroupSizes k region.length).getD j 0 ∧
      (CleanKWay.calculateGroupSizes k region.length).getD j 0
        = (if j < region.length % k then region.length / k + 1
           else region.length / k) := by
  constructor
  · have hmap := applyInputSwitches_lengths sw k start depth region (by omega)
    have hlen : (CleanKWay.applyInputSwitches sw k start depth region).length = k := by
      have h6 := congrArg List.length hmap
      rw [List.length_map, calculateGroupSizes_length] at h6
      exact h6
    have hjlen : j < (CleanKWay.applyInputSwitches sw k start depth region).length := by
      omega
    rw [← hmap]
    rw [List.getD_eq_getElem _ _ hjlen]
    rw [List.getD_eq_getElem _ _ (show j < ((CleanKWay.applyInputSwitches sw k start depth
        region).map List.length).length by rw [List.length_map]; omega)]
    rw [List.getElem_map]
  · exact calculateGroupSizes_getD hj

theorem claim_C3_distribute_counts_witness :
    (2 ≤ 2 ∧ 2 < ([0, 1, 2, 3, 4] : List Nat).length ∧ 1 < 2) ∧
      (((CleanKWay.applyInputSwitches (fun _ => none) 2 0 0
            ([0, 1, 2, 3, 4] : List Nat)).getD 1 []).length
          = (CleanKWay.calculateGroupSizes 2 ([0, 1, 2, 3, 4] : List Nat).length).getD 1 0 ∧
        (CleanKWay.calculateGroupSizes 2 ([0, 1, 2, 3, 4] : List Nat).length).getD 1 0
          = (if 1 < ([0, 1, 2, 3, 4] : List Nat).length % 2 then
              ([0, 1, 2, 3, 4] : List Nat).length / 2 + 1
             else ([0, 1, 2, 3, 4] : List Nat).length / 2)) :=
  ⟨⟨by decide, by decide, by decide⟩,
    claim_C3_distribute_counts (fun _ => none) 2 0 0 ([0, 1, 2, 3, 4] : List Nat)
      (by decide) (by decide) 1 (by decide)⟩

/-- C4: payload independence.  For every built table (any size, any radix
`k ≥ 2`, any seed), applying the table to an array `a` of length `n` gathers
through the single permutation vector obtained by applying the table to the
identity: `apply(table, a) = map (fun j => a[j]) (apply(table, identity))`,
so the realized relocation depends only on the switch settings, never on the
payload values. -/
theorem claim_C4_payload_independence (n k : Nat)
    (rho : CleanKWay.SwitchKey → Nat → List Nat) (hk : 2 ≤ k)
    (hrho : ∀ key m, (rho key m).Perm (List.range m)) (a : List Nat)
    (hlen : a.length = n) :
    CleanKWay.applyPermutation (CleanKWay.setRandomSwitches rho n k) n k a
      = Except.ok ((CleanKWay.getPermutation (CleanKWay.setRandomSwitches rho n k) n k).map
          (fun j => a.getD j 0)) := by
  have hwf := setRandomSwitches_WFat rho n k hk hrho
  unfold CleanKWay.applyPermutation
  rw [if_pos hlen]
  have hnat := (@permuteRecursive_perm_and_map Nat Nat _ _ n
    (CleanKWay.setRandomSwitches rho n k) k 0 0 (List.range n) hk
    (by rw [List.length_range]) (by rw [List.length_range]; exact hwf)).2
    (fun j => a.getD j 0)
  unfold CleanKWay.getPermutation
  rw [← hnat, map_getD_range_eq a 0 n hlen]

theorem claim_C4_payload_independence_witness :
    (2 ≤ 2 ∧ (∀ (key : CleanKWay.SwitchKey) (m : Nat),
        (List.range m).Perm (List.range m)) ∧ ([7, 8, 9] : List Nat).length = 3) ∧
      CleanKWay.applyPermutation
          (CleanKWay.setRandomSwitches (fun _ m => List.range m) 3 2) 3 2 [7, 8, 9]
        = Except.ok ((CleanKWay.getPermutation
            (CleanKWay.setRandomSwitches (fun _ m => List.range m) 3 2) 3 2).map
              (fun j => ([7, 8, 9] : List Nat).getD j 0)) :=
  ⟨⟨by decide, fun _ m => List.Perm.refl (List.range m), by decide⟩,
    claim_C4_payload_independence 3 2 (fun _ m => List.range m) (by decide)
      (fun _ m => List.Perm.refl (List.range m)) [7, 8, 9] (by decide)⟩

/-- C5: the partition helper.  For every `size ≥ 0` and `k ≥ 2`,
`_calculate_group_sizes` returns exactly `k` naturals summing to `size`,
where group `j` equals `size div k` plus one exactly when `j < size mod k`
(the first `size mod k` groups get the extra element); in particular
`partition(11, 5) = [3, 2, 2, 2, 2]`. -/
theorem claim_C5_partition (k size : Nat) (hk : 2 ≤ k) :
    (CleanKWay.calculateGroupSizes k size).length = k ∧
      (CleanKWay.calculateGroupSizes k size).sum = size ∧
      (∀ j, j < k → (CleanKWay.calculateGroupSizes k size).getD j 0
          = if j < size % k then size / k + 1 else size / k) ∧
      CleanKWay.calculateGroupSizes 5 11 = [3, 2, 2, 2, 2] :=
  ⟨calculateGroupSizes_length k size, calculateGroupSizes_sum size (by omega),
    fun _ hj => calculateGroupSizes_getD hj, by decide⟩

theorem claim_C5_partition_witness :
    2 ≤ 2 ∧
      ((CleanKWay.calculateGroupSizes 2 5).length = 2 ∧
        (CleanKWay.calculateGroupSizes 2 5).sum = 5 ∧
        (∀ j, j < 2 → (CleanKWay.calculateGroupSizes 2 5).getD j 0
            = if j < 5 % 2 then 5 / 2 + 1 else 5 / 2) ∧
        CleanKWay.calculateGroupSizes 5 11 = [3, 2, 2, 2, 2]) :=
  ⟨by decide, claim_C5_partition 2 5 (by decide)⟩

/-- C6 (counterexample to the stated behaviour): looking up a switch key that
is absent from the table does not fail fast.  With the all-empty table (every
key missing) the applier still succeeds, silently substituting identity
permutations throughout: it returns its input unchanged instead of
aborting. -/
theorem claim_C6_missing_switch_counterexample :
    CleanKWay.applyPermutation (fun _ => none) 4 2 ([10, 20, 30, 40] : List Nat)
      = Except.ok [10, 20, 30, 40] := rfl

/-- C6 (amended): every switch lookup uses `dict.get(key, identity)`: a key
absent from the table is silently replaced by the identity permutation, so
applying the all-empty table to any array of matching length succeeds and
returns the array unchanged — there is no fail-fast path for missing keys. -/
theorem claim_C6_missing_switch_amended {α : Type u} [Inhabited α] (n k : Nat)
    (a : List α) (hk : 2 ≤ k) (hlen : a.length = n) :
    CleanKWay.applyPermutation (fun _ => none) n k a = Except.ok a := by
  unfold CleanKWay.applyPermutation
  rw [if_pos hlen, permuteRecursive_none_id n k 0 0 a hk (by omega)]

theorem claim_C6_missing_switch_witness :
    (2 ≤ 2 ∧ ([5, 6, 7] : List Nat).length = 3) ∧
      CleanKWay.applyPermutation (fun _ => none) 3 2 ([5, 6, 7] : List Nat)
        = Except.ok [5, 6, 7] :=
  ⟨⟨by decide, by decide⟩,
    claim_C6_missing_switch_amended 3 2 ([5, 6, 7] : List Nat) (by decide) (by decide)⟩

/-- C7 (counterexample to the stated behaviour): the constructor accepts
`k = 1 < 2` and a negative size without raising anything: it simply stores
them. -/
theorem claim_C7_validation_counterexample :
    (CleanKWay.Network.init (-3) 1).n = -3 ∧ (CleanKWay.Network.init (-3) 1).k = 1 :=
  ⟨rfl, rfl⟩

/-- C7 (amended): `__init__` performs no validation at all: for every `n` and
`k`, including `k < 2` and `n < 0`, construction succeeds and merely stores
the arguments verbatim with an empty switch dictionary. -/
theorem claim_C7_validation_amended (n k : Int) :
    (CleanKWay.Network.init n k).n = n ∧ (CleanKWay.Network.init n k).k = k ∧
      ∀ key, (CleanKWay.Network.init n k).switches key = none :=
  ⟨rfl, rfl, fun _ => rfl⟩

/-- C8: the apply-time size check.  `apply_permutation` fails with the
`"size mismatch"` error exactly when the array's length differs from the
network size `n`; when the lengths agree it never raises it. -/
theorem claim_C8_size_mismatch {α : Type u} [Inhabited α] (sw : CleanKWay.SwitchTable)
    (n k : Nat) (a : List α) :
    (CleanKWay.applyPermutation sw n k a = Except.error "size mismatch")
      ↔ a.length ≠ n := by
  unfold CleanKWay.applyPermutation
  by_cases h : a.length = n
  · rw [if_pos h]
    simp [h]
  · rw [if_neg h]
    simp [h]

/-- C9: the stride/interleaving Waksman variant (`WaksmanShuffle`) fails
bijectivity for the odd size `n = 3` under radix 2: with its deterministic
switch bits the recursion addresses index 3 of the 3-element array, the
IndexError outcome modelled as `none`. -/
theorem claim_C9_stride_odd_failure :
    StrideWaksman.shuffle StrideWaksman.getSwitchBit ([0, 1, 2] : List Nat) = none := rfl

/-- C10: the fixed Waksman variant (`WaksmanShuffleFixed`) is total and
permutation-preserving: for every input list of any length (odd included)
and every assignment of switch bits, `shuffle` stays within bounds — it
never reaches the IndexError outcome — and returns a rearrangement of its
input (same multiset of contents). -/
theorem claim_C10_fixed_total_perm {α : Type u} [Inhabited α]
    (bits : Nat → Nat → Bool) (arr : List α) :
    ∃ out, FixedWaksman.shuffle bits arr = some out ∧ out.Perm arr := by
  unfold FixedWaksman.shuffle
  refine fixedWaksman_total bits arr.length arr.length 0 1 0 arr (le_refl _) (le_refl 1) ?_
  rcases Nat.eq_zero_or_pos arr.length with h | h
  · exact Or.inl h
  · right
    omega
